import Mathlib

/-!
# Job-control shell (Assignment2.cpp): tokenizer, parser and job table

A shallow embedding of the shell's pure front end (`tokenize`, `parse_line`,
the dispatch of `main`) and of its job engine (`exec_pipeline`, `builtin_fg`,
`builtin_bg`, `reap_children`, `remove_done_jobs`).  A C++ `std::string` is a
list of characters; the answers of the kernel (`fork`, `pipe`, `waitpid`,
`kill`) are explicit arguments of the operations that consult it.
-/

namespace MiniShell

/-! ## Strings and characters -/

/-- A `std::string`, as the list of its characters. -/
abbrev Str := List Char

/-- The single quote character. -/
def squote : Char := Char.ofNat 39

/-- The double quote character. -/
def dquote : Char := Char.ofNat 34

/-- The backslash character. -/
def bslash : Char := Char.ofNat 92

/-- `isspace` of the C locale: space, `\t`, `\n`, `\v`, `\f`, `\r`. -/
def isspace (c : Char) : Bool :=
  c.toNat = 32 || (9 ≤ c.toNat && c.toNat ≤ 13)

/-- `isdigit` of the C locale. -/
def isdigit (c : Char) : Bool :=
  48 ≤ c.toNat && c.toNat ≤ 57

/-! ## Data model (lines 19-22) -/

/-- `struct Redir`. -/
structure Redir where
  in_ : Option Str := none
  out : Option Str := none
  err : Option Str := none
  append_out : Bool := false
  append_err : Bool := false
  deriving DecidableEq

/-- `struct Cmd`. -/
structure Cmd where
  argv : List Str := []
  deriving DecidableEq

/-- `struct Pipeline`. -/
structure Pipeline where
  cmds : List Cmd := []
  r : Redir := {}
  background : Bool := false
  raw : Str := []
  pids : List Int := []
  pgid : Int := 0
  deriving DecidableEq

/-- `struct Job`. -/
structure Job where
  id : Int
  pgid : Int
  cmd : Str
  stopped : Bool
  background : Bool
  pids : List Int
  deriving DecidableEq

/-! ## tokenize (lines 36-49) -/

/-- The local variables of `tokenize`: the tokens `t`, the token under
construction `cur`, and the three mode flags. -/
structure TokState where
  t : List Str := []
  cur : Str := []
  sq : Bool := false
  dq : Bool := false
  esc : Bool := false
  deriving DecidableEq

/-- One iteration of the `for` loop of `tokenize`, on character `c`. -/
def tokenize_step (s : TokState) (c : Char) : TokState :=
  if s.esc then { s with cur := s.cur ++ [c], esc := false }
  else if c = bslash then { s with esc := true }
  else if c = squote && !s.dq then { s with sq := !s.sq }
  else if c = dquote && !s.sq then { s with dq := !s.dq }
  else if isspace c && !s.sq && !s.dq then
    (if s.cur ≠ [] then { s with t := s.t ++ [s.cur], cur := [] } else s)
  else { s with cur := s.cur ++ [c] }

/-- The end of `tokenize`: a non-empty pending token is pushed. -/
def tokenize_finish (s : TokState) : List Str :=
  if s.cur ≠ [] then s.t ++ [s.cur] else s.t

/-- `tokenize`. -/
def tokenize (s : Str) : List Str :=
  tokenize_finish (s.foldl tokenize_step {})

/-! ## parse_line (lines 51-67) -/

/-- The token `|`. -/
def tok_pipe : Str := ['|']
/-- The token `&`. -/
def tok_amp : Str := ['&']
/-- The token `<`. -/
def tok_lt : Str := ['<']
/-- The token `>`. -/
def tok_gt : Str := ['>']
/-- The token `>>`. -/
def tok_gtgt : Str := ['>', '>']
/-- The token `2>`. -/
def tok_2gt : Str := ['2', '>']
/-- The token `2>>`. -/
def tok_2gtgt : Str := ['2', '>', '>']

/-- The vector `segments` of `parse_line`, never empty: the segments before
the last one, and `segments.back()`. -/
structure Segments where
  front : List (List Str) := []
  back : List Str := []
  deriving DecidableEq

/-- The vector held by a `Segments`. -/
def Segments.toList (s : Segments) : List (List Str) := s.front ++ [s.back]

/-- One iteration of the splitting loop (line 53). -/
def split_step (s : Segments) (tk : Str) : Segments :=
  if tk = tok_pipe then { front := s.front ++ [s.back], back := [] }
  else { s with back := s.back ++ [tk] }

/-- The splitting loop of line 53, from `segments(1)`. -/
def split_segments (toks : List Str) : Segments :=
  toks.foldl split_step {}

/-- Whether line 54 finds a trailing `&` in the last segment. -/
def has_amp (s : Segments) : Bool :=
  s.back ≠ [] && s.back.getLast? = some tok_amp

/-- Line 54: a trailing `&` of the last segment is dropped. -/
def drop_amp (s : Segments) : Segments :=
  if has_amp s then { s with back := s.back.dropLast } else s

/-- The inner loop of lines 57-63 over one segment: a redirection operator
followed by a token stores that token as its target, any other token
(an operator in last position included) is pushed on `c.argv`. -/
def parse_segment : List Str → Redir → Cmd → Redir × Cmd
  | [], r, c => (r, c)
  | [tk], r, c => (r, { argv := c.argv ++ [tk] })
  | tk :: tgt :: rest, r, c =>
    if tk = tok_lt then parse_segment rest { r with in_ := some tgt } c
    else if tk = tok_gt || tk = tok_gtgt then
      parse_segment rest { r with out := some tgt, append_out := tk = tok_gtgt } c
    else if tk = tok_2gt || tk = tok_2gtgt then
      parse_segment rest { r with err := some tgt, append_err := tk = tok_2gtgt } c
    else parse_segment (tgt :: rest) r { argv := c.argv ++ [tk] }

/-- The outer loop of lines 55-65: each segment is scanned, and its command
is kept when its argument vector is not empty. -/
def parse_segments : List (List Str) → Redir → List Cmd → Redir × List Cmd
  | [], r, cmds => (r, cmds)
  | seg :: segs, r, cmds =>
    let rc := parse_segment seg r {}
    parse_segments segs rc.1 (if rc.2.argv ≠ [] then cmds ++ [rc.2] else cmds)

/-- `parse_line`. -/
def parse_line (line : Str) : Pipeline :=
  let segments := split_segments (tokenize line)
  let rc := parse_segments (drop_amp segments).toList {} []
  { cmds := rc.2, r := rc.1, background := has_amp segments, raw := line }

/-! ## The dispatch of `main` (lines 290-297) -/

/-- `is_builtin`. -/
def is_builtin (cmd : Str) : Bool :=
  cmd ∈ ["cd".toList, "exit".toList, "quit".toList, "pwd".toList, "jobs".toList,
    "fg".toList, "bg".toList]

/-- What one iteration of the loop of `main` does with the line it read. -/
inductive Action where
  | skip
  | builtin (argv : List Str)
  | exec (pl : Pipeline)
  deriving DecidableEq

/-- Lines 290-297 of `main`: an empty line or a line with no command is
skipped, a lone built-in without redirection runs in the shell, anything
else goes to `exec_pipeline`. -/
def main_dispatch (line : Str) : Action :=
  if line.length = 0 then Action.skip
  else
    let pl := parse_line line
    match pl.cmds with
    | [] => Action.skip
    | c :: _ =>
      if is_builtin (c.argv.headD []) && pl.cmds.length = 1 && pl.r.in_.isNone
          && pl.r.out.isNone && pl.r.err.isNone then Action.builtin c.argv
      else Action.exec pl

/-! ## Job table (lines 24-28, 76-78) -/

/-- The process-wide state the job engine reads and writes: `jobs`,
`next_job_id` and `sigchld_flag`. -/
structure Shell where
  jobs : List Job := []
  next_job_id : Int := 1
  sigchld_flag : Bool := false
  deriving DecidableEq

/-- The largest value of the C++ type `int` (32 bits). -/
def INT_MAX : Int := 2147483647

/-- How a call of `exec_pipeline`, `builtin_fg` or `builtin_bg` ends. -/
inductive Outcome where
  /-- The call returns `status` to the shell, whose state is now `st`. -/
  | ret (status : Int) (st : Shell)
  /-- `fork` returned 0: control is in child `i`, which calls `execvp` or
  `_exit` and never returns to the loop of the shell. -/
  | in_child (i : Nat)
  /-- `next_job_id++` overflows `int`: the behaviour is undefined. -/
  | undefined
  /-- `stoi` throws `std::out_of_range`, nothing catches it, and
  `std::terminate` ends the shell. -/
  | terminated
  deriving DecidableEq

/-- `find_job_by_id`: the first Job of the table with this id. The pointer
the source returns is the index of the Job in `jobs`. -/
def find_job_by_id : List Job → Int → Option Nat
  | [], _ => none
  | j :: js, id => if j.id = id then some 0 else (find_job_by_id js id).map (· + 1)

/-- A write through the pointer `j` of `builtin_fg` and `builtin_bg`: the Job
at index `k` becomes `f` of itself. -/
def modify_job (f : Job → Job) : List Job → Nat → List Job
  | [], _ => []
  | j :: js, 0 => f j :: js
  | j :: js, k + 1 => j :: modify_job f js k

/-- The word `print_jobs` writes for the state of a Job. -/
def job_state (j : Job) : Str :=
  if j.stopped then "stopped".toList else "running".toList

/-- `print_jobs`: per Job, the fields of the line it writes, in the order
id, pgid, state word, label. -/
def print_jobs (jobs : List Job) : List (Int × Int × Str × Str) :=
  jobs.map (fun j => (j.id, j.pgid, job_state j, j.cmd))

/-! ## remove_done_jobs and reap_children (lines 80-114) -/

/-- What `WIFEXITED`, `WIFSIGNALED`, `WIFSTOPPED` and `WIFCONTINUED` tell of a
status. -/
inductive WStatus where
  | exited
  | signaled
  | stopped
  | continued
  deriving DecidableEq

/-- The answers of the kernel to the probes of `remove_done_jobs`. The probes
are numbered in the order they are made; probe `n` on `pid` is one
`waitpid(pid, &status, WNOHANG|WUNTRACED|WCONTINUED)` (`none` when it returns
0 or -1) and one `kill(pid, 0)` (`true` when it returns 0). -/
structure Kernel where
  waitpid : Nat → Int → Option WStatus
  kill0 : Nat → Int → Bool

/-- The effect of one observed status on the `stopped` flag (lines 86-87 and
108-109). -/
def update_stopped (stopped : Bool) : Option WStatus → Bool
  | some WStatus.stopped => true
  | some WStatus.continued => false
  | _ => stopped

/-- The inner loop of `remove_done_jobs` (lines 84-90) over the pids of one
Job, from probe number `n`: the next probe number, the `stopped` flag and
`any_alive`. -/
def probe_pids (k : Kernel) : Nat → List Int → Bool → Bool → Nat × Bool × Bool
  | n, [], stopped, any_alive => (n, stopped, any_alive)
  | n, pid :: pids, stopped, any_alive =>
    probe_pids k (n + 1) pids (update_stopped stopped (k.waitpid n pid))
      (any_alive || k.kill0 n pid)

/-- The outer loop of `remove_done_jobs` (lines 82-96) from index `idx` and
probe number `n`: a Job with no live member is erased and `idx` stays, any
other Job keeps its place and `idx` advances. -/
def remove_done_jobs_loop (k : Kernel) (jobs : List Job) (idx n : Nat) : List Job :=
  if h : idx < jobs.length then
    let j := jobs[idx]
    let res := probe_pids k n j.pids j.stopped false
    if !res.2.2 then remove_done_jobs_loop k (jobs.eraseIdx idx) idx res.1
    else remove_done_jobs_loop k (jobs.set idx { j with stopped := res.2.1 }) (idx + 1) res.1
  else jobs
termination_by jobs.length - idx
decreasing_by
  · simp only [List.length_eraseIdx, h, if_true]; omega
  · simp only [List.length_set]; omega

/-- `remove_done_jobs`. -/
def remove_done_jobs (k : Kernel) (jobs : List Job) : List Job :=
  remove_done_jobs_loop k jobs 0 0

/-- Lines 106-111: a status observed for `pid` updates every Job that has
`pid` among its members. -/
def mark_status (jobs : List Job) (pid : Int) (status : WStatus) : List Job :=
  jobs.map (fun j =>
    if pid ∈ j.pids then { j with stopped := update_stopped j.stopped (some status) } else j)

/-- `reap_children`. `events` are the (pid, status) pairs the calls of
`waitpid(-1, ...)` return before one returns 0 or -1. -/
def reap_children (st : Shell) (events : List (Int × WStatus)) (k : Kernel) : Shell :=
  if !st.sigchld_flag then st
  else
    { st with
      sigchld_flag := false
      jobs := remove_done_jobs k (events.foldl (fun js e => mark_status js e.1 e.2) st.jobs) }

/-! ## exec_pipeline (lines 123-196) -/

/-- How the loop `while(true)` around `waitpid(pid, &status, WUNTRACED)` is
left (lines 177-185 and 223-231). -/
inductive WaitFinal where
  /-- `waitpid` returns -1 with `errno` other than `EINTR`. -/
  | error
  | stopped
  | exited
  | signaled
  deriving DecidableEq

/-- What the kernel answers while the shell waits on one member: `eintr`
returns of -1 with `EINTR`, then `final`. -/
structure WaitTrace where
  eintr : Nat
  final : WaitFinal
  deriving DecidableEq

/-- The loop `while(true)` of lines 177-185: an interrupted wait is retried,
any other answer leaves the loop. -/
def wait_member : Nat → WaitFinal → WaitFinal
  | 0, final => final
  | eintr + 1, final => wait_member eintr final

/-- The loop over the members (lines 176-186 and 222-232), the trace of
member number `i` being `wait i`: the flag `stopped` at the end. -/
def wait_all (wait : Nat → WaitTrace) : List Int → Nat → Bool → Bool
  | [], _, stopped => stopped
  | _ :: pids, i, stopped =>
    wait_all wait pids (i + 1)
      (stopped || wait_member (wait i).eintr (wait i).final = WaitFinal.stopped)

/-- The answers of the kernel during one call of `exec_pipeline`: whether the
`i`-th `pipe` succeeds, what the `i`-th `fork` returns, and the wait trace of
member `i`. -/
structure Spawn where
  pipe_ok : Nat → Bool
  fork : Nat → Int
  wait : Nat → WaitTrace

/-- How the loop of forks ends. -/
inductive ForkResult where
  | failed
  | child (i : Nat)
  | ok (pgid : Int) (pids : List Int)
  deriving DecidableEq

/-- The loop of lines 133-166 with `remaining` commands left to fork, the
next one being command `i`. -/
def fork_loop (fork : Nat → Int) : Nat → Nat → Int → List Int → ForkResult
  | 0, _, pgid, pids => ForkResult.ok pgid pids
  | remaining + 1, i, pgid, pids =>
    if fork i < 0 then ForkResult.failed
    else if fork i = 0 then ForkResult.child i
    else fork_loop fork remaining (i + 1) (if pgid = 0 then fork i else pgid) (pids ++ [fork i])

/-- `exec_pipeline`, as far as the state of the shell goes. -/
def exec_pipeline (st : Shell) (pl : Pipeline) (os : Spawn) : Outcome :=
  let n := pl.cmds.length
  if n = 0 then Outcome.ret 0 st
  else if !(List.range (n - 1)).all os.pipe_ok then Outcome.ret (-1) st
  else
    match fork_loop os.fork n 0 0 [] with
    | ForkResult.failed => Outcome.ret (-1) st
    | ForkResult.child i => Outcome.in_child i
    | ForkResult.ok pgid pids =>
      if INT_MAX ≤ st.next_job_id then Outcome.undefined
      else
        let j : Job := ⟨st.next_job_id, pgid, pl.raw, false, pl.background, pids⟩
        let st1 : Shell := { st with jobs := st.jobs ++ [j], next_job_id := st.next_job_id + 1 }
        if !pl.background then
          if !wait_all os.wait pids 0 false then
            Outcome.ret 0 { st1 with jobs := st1.jobs.filter (fun x => x.pgid ≠ pgid) }
          else Outcome.ret 0 st1
        else Outcome.ret 0 st1

/-! ## fg and bg (lines 198-252) -/

/-- `is_number`. -/
def is_number (s : Str) : Bool := s ≠ [] && s.all isdigit

/-- The value of a string of decimal digits. -/
def decimal_value (s : Str) : Nat :=
  s.foldl (fun acc c => 10 * acc + (c.toNat - 48)) 0

/-- `stoi` on a string of decimal digits, the only strings it is called on
(after `is_number`): the value, or `none` when the value does not fit `int`
and `stoi` throws `std::out_of_range`. -/
def stoi (s : Str) : Option Int :=
  if (decimal_value s : Int) ≤ INT_MAX then some (decimal_value s) else none

/-- Lines 214 and 244: one leading `%` is removed. -/
def strip_percent : Str → Str
  | '%' :: rest => rest
  | a => a

/-- Phase two of `std::remove_if` once an element has been moved into the
hole: the predicate `x.id == j->id` reads the id `cur` of that element. -/
def remove_rest (cur : Int) : List Job → List Job
  | [] => []
  | x :: xs => if x.id = cur then remove_rest cur xs else x :: remove_rest cur xs

/-- Phase two of `std::remove_if` while the hole left by `*j` is still open:
`j->id` is `cur`; the first element kept is moved into the hole, and from
then on `j->id` is the id of that element. -/
def remove_after_hole (cur : Int) : List Job → List Job
  | [] => []
  | x :: xs => if x.id = cur then remove_after_hole cur xs else x :: remove_rest x.id xs

/-- Line 236, `jobs.erase(remove_if(..., x.id == j->id), jobs.end())` with
`j` pointing at index `k`, the first Job with its id: `remove_if` finds `*j`
first, then scans what follows, its predicate reading `j->id` from the
vector it is rewriting. -/
def erase_job_at (jobs : List Job) (k : Nat) : List Job :=
  match jobs.drop k with
  | [] => jobs
  | j :: rest => jobs.take k ++ remove_after_hole j.id rest

/-- The `stopped` flag of the Job at index `k`. -/
def stopped_at (jobs : List Job) (k : Nat) : Bool :=
  match jobs.drop k with
  | [] => false
  | j :: _ => j.stopped

/-- The member pids of the Job at index `k`. -/
def pids_at (jobs : List Job) (k : Nat) : List Int :=
  match jobs.drop k with
  | [] => []
  | j :: _ => j.pids

/-- `builtin_fg`; `wait i` is the wait trace of member `i` of the Job. -/
def builtin_fg (st : Shell) (args : List Str) (wait : Nat → WaitTrace) : Outcome :=
  match args with
  | _ :: a :: _ =>
    if !is_number (strip_percent a) then Outcome.ret 1 st
    else
      match stoi (strip_percent a) with
      | none => Outcome.terminated
      | some id =>
        match find_job_by_id st.jobs id with
        | none => Outcome.ret 1 st
        | some k =>
          let jobs1 := modify_job (fun j => { j with background := false }) st.jobs k
          let stopped := wait_all wait (pids_at jobs1 k) 0 (stopped_at jobs1 k)
          let jobs2 := modify_job (fun j => { j with stopped := stopped }) jobs1 k
          if !stopped then Outcome.ret 0 { st with jobs := erase_job_at jobs2 k }
          else Outcome.ret 0 { st with jobs := jobs2 }
  | _ => Outcome.ret 1 st

/-- `builtin_bg`. -/
def builtin_bg (st : Shell) (args : List Str) : Outcome :=
  match args with
  | _ :: a :: _ =>
    if !is_number (strip_percent a) then Outcome.ret 1 st
    else
      match stoi (strip_percent a) with
      | none => Outcome.terminated
      | some id =>
        match find_job_by_id st.jobs id with
        | none => Outcome.ret 1 st
        | some k =>
          Outcome.ret 0
            { st with
              jobs := modify_job (fun j => { j with background := true, stopped := false })
                st.jobs k }
  | _ => Outcome.ret 1 st

/-! ## Words of plain characters -/

/-- A character that is no whitespace, no quote and no backslash. -/
def plain_char (c : Char) : Prop :=
  isspace c = false ∧ c ≠ squote ∧ c ≠ dquote ∧ c ≠ bslash

instance (c : Char) : Decidable (plain_char c) := by
  unfold plain_char; infer_instance

/-- A word of plain characters. -/
def plain_word (w : Str) : Prop := ∀ c ∈ w, plain_char c

instance (w : Str) : Decidable (plain_word w) := by
  unfold plain_word; infer_instance

/-! ## Segments and their items -/

/-- Whether a token is one of the five redirection operators. -/
def is_redir_op (tk : Str) : Bool :=
  tk = tok_lt || tk = tok_gt || tk = tok_gtgt || tk = tok_2gt || tk = tok_2gtgt

/-- The segments `parse_line` scans for a line: the split of its tokens on
`|`, a trailing `&` of the last one dropped. -/
def line_segments (line : Str) : List (List Str) :=
  (drop_amp (split_segments (tokenize line))).toList

/-- The argument vector `parse_line` builds for a segment. -/
def seg_argv (seg : List Str) : List Str := (parse_segment seg {} {}).2.argv

/-- One item of a segment as the scan of `parse_line` reads it: a word that
is no redirection operator, or a redirection operator with the token after
it. -/
inductive SegItem where
  | word (w : Str)
  | redirect (op target : Str)
  deriving DecidableEq

/-- The tokens of an item. -/
def SegItem.tokens : SegItem → List Str
  | SegItem.word w => [w]
  | SegItem.redirect op target => [op, target]

/-- The arguments an item stands for. -/
def SegItem.args : SegItem → List Str
  | SegItem.word w => [w]
  | SegItem.redirect _ _ => []

/-- An item is well formed when its word is no redirection operator, or its
operator is one. -/
def SegItem.ok : SegItem → Prop
  | SegItem.word w => is_redir_op w = false
  | SegItem.redirect op _ => is_redir_op op = true

instance (it : SegItem) : Decidable it.ok := by
  cases it <;> unfold SegItem.ok <;> infer_instance

/-! ## Canonical serialization of a Pipeline -/

/-- Whether a token is one of the seven reserved tokens. -/
def is_reserved (tk : Str) : Bool :=
  tk = tok_pipe || is_redir_op tk || tk = tok_amp

/-- A word the round-trip law admits: not empty, of plain characters, and
not a reserved token. -/
def word_ok (w : Str) : Prop := w ≠ [] ∧ plain_word w ∧ is_reserved w = false

instance (w : Str) : Decidable (word_ok w) := by
  unfold word_ok; infer_instance

/-- The Pipelines the round-trip law is about: one command at least, every
command with an argument at least, every argument and every redirection
target an admitted word, and no append flag without its target. -/
structure Canonical (p : Pipeline) : Prop where
  cmds_ne : p.cmds ≠ []
  argv_ne : ∀ c ∈ p.cmds, c.argv ≠ []
  args_ok : ∀ c ∈ p.cmds, ∀ w ∈ c.argv, word_ok w
  in_ok : ∀ f, p.r.in_ = some f → word_ok f
  out_ok : ∀ f, p.r.out = some f → word_ok f
  err_ok : ∀ f, p.r.err = some f → word_ok f
  append_out_ok : p.r.out = none → p.r.append_out = false
  append_err_ok : p.r.err = none → p.r.append_err = false

/-- The tokens that write the redirections of a Pipeline: `< in`, then `>` or
`>>` and `out`, then `2>` or `2>>` and `err`, each only when its target is
present. -/
def redir_tokens (r : Redir) : List Str :=
  (match r.in_ with
    | some f => [tok_lt, f]
    | none => [])
  ++ (match r.out with
    | some f => [if r.append_out then tok_gtgt else tok_gt, f]
    | none => [])
  ++ (match r.err with
    | some f => [if r.append_err then tok_2gtgt else tok_2gt, f]
    | none => [])

/-- The tokens of the canonical serialization: the commands joined by `|`,
the redirections after the last command, then `&` for a background
Pipeline. -/
def serialize_tokens (p : Pipeline) : List Str :=
  [tok_pipe].intercalate (p.cmds.map Cmd.argv) ++ redir_tokens p.r
    ++ (if p.background then [tok_amp] else [])

/-- The canonical serialization of a Pipeline, as the round-trip law words
it: its tokens joined by single spaces. -/
def serialize (p : Pipeline) : Str := [' '].intercalate (serialize_tokens p)

/-! ## Jobs with a live member -/

/-- Whether one of the liveness probes made on the members `pids` of a Job,
the first of them being probe number `n`, succeeds. -/
def any_live (k : Kernel) : Nat → List Int → Bool
  | _, [] => false
  | n, pid :: pids => k.kill0 n pid || any_live k (n + 1) pids

/-- The Jobs of a table with a live member, in their order, the probes on the
first Job starting at probe number `n`. -/
def live_jobs (k : Kernel) : Nat → List Job → List Job
  | _, [] => []
  | n, j :: js =>
    if any_live k n j.pids then j :: live_jobs k (n + j.pids.length) js
    else live_jobs k (n + j.pids.length) js

/-- What `remove_done_jobs` never writes of a Job: id, pgid, label,
background flag and members. -/
def Job.fixed (j : Job) : Int × Int × Str × Bool × List Int :=
  (j.id, j.pgid, j.cmd, j.background, j.pids)

/-- The loop of `remove_done_jobs` over the Jobs not visited yet, the Jobs
kept so far set aside. -/
def sweep (k : Kernel) : Nat → List Job → List Job
  | _, [] => []
  | n, j :: js =>
    if !(probe_pids k n j.pids j.stopped false).2.2 then
      sweep k (probe_pids k n j.pids j.stopped false).1 js
    else
      { j with stopped := (probe_pids k n j.pids j.stopped false).2.1 }
        :: sweep k (probe_pids k n j.pids j.stopped false).1 js

/-! ## Launches and identifier arguments -/

/-- The pids of a Pipeline of `n` commands, when every `fork` succeeds. -/
def launched_pids (fork : Nat → Int) (n : Nat) : List Int :=
  (List.range n).map fork

/-- The Job `exec_pipeline` registers for a Pipeline it launched. -/
def registered_job (st : Shell) (pl : Pipeline) (os : Spawn) : Job :=
  ⟨st.next_job_id, os.fork 0, pl.raw, false, pl.background,
    launched_pids os.fork pl.cmds.length⟩

/-- A launch succeeds when every `pipe` and every `fork` does. -/
def launch_ok (pl : Pipeline) (os : Spawn) : Prop :=
  pl.cmds ≠ [] ∧ (List.range (pl.cmds.length - 1)).all os.pipe_ok = true
    ∧ ∀ i, i < pl.cmds.length → 0 < os.fork i

instance (pl : Pipeline) (os : Spawn) : Decidable (launch_ok pl os) := by
  unfold launch_ok; infer_instance

/-- An argument vector of `fg` or `bg` names the Job id `id`: its second
word, one leading `%` removed, is a string of digits with value `id`. -/
def names_job (args : List Str) (id : Int) : Prop :=
  ∃ cmd a rest, args = cmd :: a :: rest ∧ is_number (strip_percent a) = true
    ∧ stoi (strip_percent a) = some id

/-! ## Reachable states -/

/-- The states of the shell reachable from the initial one by the arrival of
`SIGCHLD`, `reap_children`, `exec_pipeline`, `builtin_fg` and `builtin_bg`,
whatever the kernel answers, as long as the calls return. -/
inductive Reachable : Shell → Prop where
  | init : Reachable {}
  | sigchld (st : Shell) : Reachable st → Reachable { st with sigchld_flag := true }
  | reap (st : Shell) (events : List (Int × WStatus)) (k : Kernel) :
      Reachable st → Reachable (reap_children st events k)
  | exec (st : Shell) (pl : Pipeline) (os : Spawn) (status : Int) (st2 : Shell) :
      Reachable st → exec_pipeline st pl os = Outcome.ret status st2 → Reachable st2
  | fg (st : Shell) (args : List Str) (wait : Nat → WaitTrace) (status : Int) (st2 : Shell) :
      Reachable st → builtin_fg st args wait = Outcome.ret status st2 → Reachable st2
  | bg (st : Shell) (args : List Str) (status : Int) (st2 : Shell) :
      Reachable st → builtin_bg st args = Outcome.ret status st2 → Reachable st2

/-- The ids of a table are in order below `next`: strictly increasing, each
at least 1 and less than `next`. -/
def ids_ok (jobs : List Job) (next : Int) : Prop :=
  (jobs.map Job.id).Pairwise (· < ·) ∧ (∀ i ∈ jobs.map Job.id, 1 ≤ i ∧ i < next) ∧ 1 ≤ next

/-- The state after `sleep 30 &` is launched from the initial state with
pid 100. -/
def one_background_job : Shell :=
  { jobs := [⟨1, 100, "sleep 30 &".toList, false, true, [100]⟩], next_job_id := 2 }

/-- The state `one_background_job` once the reaper has seen its Job
stopped. -/
def one_stopped_job : Shell :=
  { jobs := [⟨1, 100, "sleep 30 &".toList, true, true, [100]⟩], next_job_id := 2 }

/-! ## Tokenizer lemmas -/

/-- Outside an escape, a plain character is appended to the pending token,
whatever the quote flags are. -/
theorem tokenize_step_plain (s : TokState) (c : Char) (hc : plain_char c)
    (hs : s.esc = false) : tokenize_step s c = { s with cur := s.cur ++ [c] } := by
  obtain ⟨h1, h2, h3, h4⟩ := hc
  simp [tokenize_step, hs, h1, h2, h3, h4]

/-- A plain word is appended to the pending token. -/
theorem foldl_plain (w : Str) : ∀ (s : TokState), plain_word w → s.esc = false →
    w.foldl tokenize_step s = { s with cur := s.cur ++ w } := by
  induction w with
  | nil => intro s _ _; simp
  | cons c w ih =>
    intro s hw hs
    have hc : plain_char c := hw c (List.mem_cons_self _ _)
    have hw2 : plain_word w := fun d hd => hw d (List.mem_cons_of_mem _ hd)
    rw [List.foldl_cons, tokenize_step_plain s c hc hs, ih { s with cur := s.cur ++ [c] } hw2 hs]
    simp

/-- Inside single quotes, every character but the single quote and the
backslash is appended to the pending token. -/
theorem foldl_in_squote (w : Str) : ∀ (s : TokState), (∀ c ∈ w, c ≠ squote ∧ c ≠ bslash) →
    s.esc = false → s.sq = true → s.dq = false →
    w.foldl tokenize_step s = { s with cur := s.cur ++ w } := by
  induction w with
  | nil => intro s _ _ _ _; simp
  | cons c w ih =>
    intro s hw hs hq hd
    have hc := hw c (List.mem_cons_self _ _)
    have hw2 : ∀ d ∈ w, d ≠ squote ∧ d ≠ bslash := fun d hd => hw d (List.mem_cons_of_mem _ hd)
    have hstep : tokenize_step s c = { s with cur := s.cur ++ [c] } := by
      simp [tokenize_step, hs, hq, hd, hc.1, hc.2]
    rw [List.foldl_cons, hstep, ih { s with cur := s.cur ++ [c] } hw2 hs hq hd]
    simp

/-- C8: a single-quoted run between two plain runs is one token, the run
taken literally (whitespace and double quotes included) and the quotes
removed. -/
theorem tokenize_single_quoted (u w v : Str) (hu : plain_word u) (hv : plain_word v)
    (hw : ∀ c ∈ w, c ≠ squote ∧ c ≠ bslash) (hne : u ++ w ++ v ≠ []) :
    tokenize (u ++ [squote] ++ w ++ [squote] ++ v) = [u ++ w ++ v] := by
  have hq : squote ≠ bslash := by decide
  unfold tokenize
  simp only [List.foldl_append, List.foldl_cons, List.foldl_nil]
  rw [foldl_plain u _ hu rfl]
  have h1 : tokenize_step { ({} : TokState) with cur := ([] : Str) ++ u } squote
      = { t := [], cur := u, sq := true, dq := false, esc := false } := by
    simp [tokenize_step, hq]
  rw [h1, foldl_in_squote w _ hw rfl rfl rfl]
  have h2 : tokenize_step { t := [], cur := u ++ w, sq := true, dq := false, esc := false } squote
      = { t := [], cur := u ++ w, sq := false, dq := false, esc := false } := by
    simp [tokenize_step, hq]
  simp only [h2]
  rw [foldl_plain v _ hv rfl]
  simp only [tokenize_finish]
  rw [if_pos hne]
  simp

/-- C8 at `a'b "c'd`: the token is `ab "cd`. -/
theorem tokenize_single_quoted_witness :
    tokenize ("a".toList ++ [squote] ++ "b \"c".toList ++ [squote] ++ "d".toList)
      = ["a".toList ++ "b \"c".toList ++ "d".toList] :=
  tokenize_single_quoted "a".toList "b \"c".toList "d".toList (by decide) (by decide)
    (by decide) (by decide)

/-! ## Parser lemmas -/

/-- A token that is no redirection operator is pushed on the argument vector. -/
theorem parse_segment_word (w : Str) (rest : List Str) (r : Redir) (c : Cmd)
    (hw : is_redir_op w = false) :
    parse_segment (w :: rest) r c = parse_segment rest r { argv := c.argv ++ [w] } := by
  simp only [is_redir_op, Bool.or_eq_false_iff, decide_eq_false_iff_not] at hw
  obtain ⟨⟨⟨⟨h1, h2⟩, h3⟩, h4⟩, h5⟩ := hw
  cases rest with
  | nil => simp [parse_segment]
  | cons tgt rest => simp [parse_segment, h1, h2, h3, h4, h5]

/-- A redirection operator followed by a token adds nothing to the argument
vector. -/
theorem parse_segment_redirect (op tgt : Str) (rest : List Str) (r : Redir) (c : Cmd)
    (hop : is_redir_op op = true) :
    ∃ r2, parse_segment (op :: tgt :: rest) r c = parse_segment rest r2 c := by
  by_cases h1 : op = tok_lt
  · exact ⟨{ r with in_ := some tgt }, by simp [parse_segment, h1]⟩
  · by_cases h2 : op = tok_gt ∨ op = tok_gtgt
    · refine ⟨{ r with out := some tgt, append_out := op = tok_gtgt }, ?_⟩
      rcases h2 with h2 | h2 <;> simp [parse_segment, h2, tok_gt, tok_gtgt, tok_lt]
    · have h3 : op = tok_2gt ∨ op = tok_2gtgt := by
        simp only [is_redir_op, Bool.or_eq_true, decide_eq_true_eq] at hop
        tauto
      refine ⟨{ r with err := some tgt, append_err := op = tok_2gtgt }, ?_⟩
      rcases h3 with h3 | h3 <;>
        simp [parse_segment, h3, tok_gt, tok_gtgt, tok_lt, tok_2gt, tok_2gtgt]

/-- The argument vector of a segment does not depend on the redirections
seen so far, and extends the arguments already pushed. -/
theorem parse_segment_argv : ∀ (n : Nat) (seg : List Str), seg.length ≤ n →
    ∀ (r : Redir) (c : Cmd), (parse_segment seg r c).2.argv = c.argv ++ seg_argv seg := by
  intro n
  induction n with
  | zero =>
    intro seg hlen r c
    have : seg = [] := List.length_eq_zero.mp (Nat.le_zero.mp hlen)
    subst this
    simp [parse_segment, seg_argv]
  | succ n ih =>
    intro seg hlen r c
    match seg, hlen with
    | [], _ => simp [parse_segment, seg_argv]
    | [tk], _ => simp [parse_segment, seg_argv]
    | tk :: tgt :: rest, hlen =>
      have hlen1 : (tgt :: rest).length ≤ n := by simp at hlen ⊢; omega
      have hlen2 : rest.length ≤ n := by simp at hlen ⊢; omega
      by_cases hop : is_redir_op tk = true
      · obtain ⟨r2, e2⟩ := parse_segment_redirect tk tgt rest r c hop
        obtain ⟨r3, e3⟩ := parse_segment_redirect tk tgt rest {} {} hop
        have e : seg_argv (tk :: tgt :: rest) = seg_argv rest := by
          show (parse_segment (tk :: tgt :: rest) {} {}).2.argv = _
          rw [e3, ih rest hlen2 r3 {}]
          simp
        rw [e2, ih rest hlen2 r2 c, e]
      · have hw : is_redir_op tk = false := by simpa using hop
        have e : seg_argv (tk :: tgt :: rest) = tk :: seg_argv (tgt :: rest) := by
          show (parse_segment (tk :: tgt :: rest) {} {}).2.argv = _
          rw [parse_segment_word tk _ {} {} hw, ih _ hlen1]
          simp
        rw [parse_segment_word tk _ r c hw, ih _ hlen1, e]
        simp

/-- The commands `parse_segments` collects: the non-empty argument vectors of
the segments, in order. -/
theorem parse_segments_cmds (segs : List (List Str)) : ∀ (r : Redir) (cmds : List Cmd),
    (parse_segments segs r cmds).2
      = cmds ++ (segs.map (fun seg => (⟨seg_argv seg⟩ : Cmd))).filter (fun c => c.argv ≠ []) := by
  induction segs with
  | nil => intro r cmds; simp [parse_segments]
  | cons seg segs ih =>
    intro r cmds
    have hargv : (parse_segment seg r {}).2.argv = seg_argv seg := by
      rw [parse_segment_argv seg.length seg (le_refl _) r {}]; simp
    have hcmd : (parse_segment seg r {}).2 = (⟨seg_argv seg⟩ : Cmd) := by
      rw [← hargv]
    simp only [parse_segments, List.map_cons]
    rw [ih, hcmd]
    by_cases he : seg_argv seg = []
    · simp [he, List.filter_cons]
    · simp [he, List.filter_cons]

/-- The commands of `parse_line`. -/
theorem parse_line_cmds (line : Str) :
    (parse_line line).cmds
      = ((line_segments line).map (fun seg => (⟨seg_argv seg⟩ : Cmd))).filter
          (fun c => c.argv ≠ []) := by
  simp [parse_line, line_segments, parse_segments_cmds]

/-- The loop of `main` skips a line exactly when `parse_line` finds no
command in it. -/
theorem main_dispatch_skip_iff (line : Str) :
    main_dispatch line = Action.skip ↔ (parse_line line).cmds = [] := by
  unfold main_dispatch
  by_cases hl : line.length = 0
  · have : line = [] := List.length_eq_zero.mp hl
    subst this
    simp
    decide
  · simp only [hl, if_false]
    cases hc : (parse_line line).cmds with
    | nil => simp
    | cons c cs =>
      simp only []
      split <;> simp

/-- C6, as the code has it: an empty segment is no error. The commands of
`parse_line` are the non-empty argument vectors of the segments of the line,
in order, the segments without an argument being left out, and the loop of
`main` skips the line only when no segment has an argument. -/
theorem parse_line_drops_empty_segments (line : Str) :
    (parse_line line).cmds
        = ((line_segments line).map (fun seg => (⟨seg_argv seg⟩ : Cmd))).filter
            (fun c => c.argv ≠ [])
      ∧ seg_argv [] = []
      ∧ (main_dispatch line = Action.skip ↔ ∀ seg ∈ line_segments line, seg_argv seg = []) := by
  refine ⟨parse_line_cmds line, rfl, ?_⟩
  rw [main_dispatch_skip_iff, parse_line_cmds, List.filter_eq_nil_iff]
  simp

/-- C6 fails at `ls | | wc`: the tokens split into three segments, the
middle one empty, and the loop of `main` hands the commands `ls` and `wc` to
`exec_pipeline`. -/
theorem empty_segment_not_rejected :
    (split_segments (tokenize "ls | | wc".toList)).toList
        = [["ls".toList], [], ["wc".toList]]
      ∧ main_dispatch "ls | | wc".toList
        = Action.exec
            { cmds := [⟨["ls".toList]⟩, ⟨["wc".toList]⟩], raw := "ls | | wc".toList } := by
  decide

/-- The argument vector of a segment that starts with well-formed items. -/
theorem seg_argv_items (items : List SegItem) (rest : List Str)
    (hitems : ∀ it ∈ items, it.ok) :
    seg_argv (items.flatMap SegItem.tokens ++ rest)
      = items.flatMap SegItem.args ++ seg_argv rest := by
  induction items with
  | nil => simp
  | cons it items ih =>
    have hit : it.ok := hitems it (List.mem_cons_self _ _)
    have ih2 := ih (fun x hx => hitems x (List.mem_cons_of_mem _ hx))
    cases it with
    | word w =>
      have hw : is_redir_op w = false := hit
      have e : seg_argv (w :: (items.flatMap SegItem.tokens ++ rest))
          = w :: seg_argv (items.flatMap SegItem.tokens ++ rest) := by
        show (parse_segment _ {} {}).2.argv = _
        rw [parse_segment_word w _ {} {} hw, parse_segment_argv _ _ (le_refl _)]
        simp
      simp only [List.flatMap_cons, SegItem.tokens, SegItem.args, List.cons_append,
        List.nil_append, List.singleton_append]
      rw [e, ih2]
    | redirect op target =>
      have hop : is_redir_op op = true := hit
      obtain ⟨r2, e2⟩ := parse_segment_redirect op target
        (items.flatMap SegItem.tokens ++ rest) {} {} hop
      have e : seg_argv (op :: target :: (items.flatMap SegItem.tokens ++ rest))
          = seg_argv (items.flatMap SegItem.tokens ++ rest) := by
        show (parse_segment _ {} {}).2.argv = _
        rw [e2, parse_segment_argv _ _ (le_refl _)]
        simp
      simp only [List.flatMap_cons, SegItem.tokens, SegItem.args, List.cons_append,
        List.nil_append]
      rw [e, ih2]

/-- C7, as the code has it: a redirection operator that ends its segment, with
no token after it to be its target, is no error. It is pushed on the argument
vector of the command of that segment like any word, after the arguments of
the items before it, and the loop of `main` runs the line. -/
theorem trailing_redirect_kept_as_argument (line : Str) (items : List SegItem) (op : Str)
    (hitems : ∀ it ∈ items, it.ok) (_hop : is_redir_op op = true)
    (hseg : items.flatMap SegItem.tokens ++ [op] ∈ line_segments line) :
    (⟨items.flatMap SegItem.args ++ [op]⟩ : Cmd) ∈ (parse_line line).cmds
      ∧ main_dispatch line ≠ Action.skip := by
  have hargv : seg_argv (items.flatMap SegItem.tokens ++ [op])
      = items.flatMap SegItem.args ++ [op] := by
    rw [seg_argv_items items [op] hitems]
    simp [seg_argv, parse_segment]
  have hmem : (⟨items.flatMap SegItem.args ++ [op]⟩ : Cmd) ∈ (parse_line line).cmds := by
    rw [parse_line_cmds, List.mem_filter]
    refine ⟨?_, by simp⟩
    rw [List.mem_map]
    exact ⟨_, hseg, by rw [hargv]⟩
  refine ⟨hmem, ?_⟩
  rw [Ne, main_dispatch_skip_iff]
  intro h
  rw [h] at hmem
  exact absurd hmem (List.not_mem_nil _)

/-- C7 as the code has it, at `cat < in.txt >`: the command is `cat >`. -/
theorem trailing_redirect_kept_as_argument_witness :
    (⟨["cat".toList, tok_gt]⟩ : Cmd) ∈ (parse_line "cat < in.txt >".toList).cmds
      ∧ main_dispatch "cat < in.txt >".toList ≠ Action.skip :=
  trailing_redirect_kept_as_argument "cat < in.txt >".toList
    [SegItem.word "cat".toList, SegItem.redirect tok_lt "in.txt".toList] tok_gt
    (by decide) (by decide) (by decide)

/-- C7 fails at `ls >`: the operator `>` ends its segment, and `parse_line`
makes it the second argument of `ls`; the loop of `main` hands the command to
`exec_pipeline`. -/
theorem trailing_redirect_not_rejected :
    line_segments "ls >".toList = [["ls".toList, tok_gt]]
      ∧ parse_line "ls >".toList
        = { cmds := [⟨["ls".toList, tok_gt]⟩], raw := "ls >".toList }
      ∧ main_dispatch "ls >".toList
        = Action.exec { cmds := [⟨["ls".toList, tok_gt]⟩], raw := "ls >".toList } := by
  decide

/-! ## Round trip of `parse_line` -/

/-- Joining a head and a non-empty tail. -/
theorem intercalate_cons_cons {α : Type} (sep a b : List α) (xs : List (List α)) :
    sep.intercalate (a :: b :: xs) = a ++ sep ++ sep.intercalate (b :: xs) := by
  simp [List.intercalate]

/-- The tokenizer, started between two tokens, reads words joined by single
spaces back as these words. -/
theorem tokenize_fold_join (ws : List Str) : ∀ (t : List Str),
    (∀ w ∈ ws, w ≠ [] ∧ plain_word w) →
    tokenize_finish (([' '].intercalate ws).foldl tokenize_step { t := t }) = t ++ ws := by
  induction ws with
  | nil => intro t _; simp [List.intercalate, tokenize_finish]
  | cons w ws ih =>
    intro t hws
    obtain ⟨hne, hpl⟩ := hws w (List.mem_cons_self _ _)
    cases ws with
    | nil =>
      have e : [' '].intercalate [w] = w := by simp [List.intercalate]
      rw [e, foldl_plain w _ hpl rfl]
      simp [tokenize_finish, hne]
    | cons w2 ws =>
      rw [intercalate_cons_cons, List.foldl_append, List.foldl_append, foldl_plain w _ hpl rfl]
      have hstep : List.foldl tokenize_step
          { ({ t := t } : TokState) with cur := ({ t := t } : TokState).cur ++ w } [' ']
          = { t := t ++ [w] } := by
        have h1 : (' ' : Char) ≠ bslash := by decide
        have h2 : (' ' : Char) ≠ squote := by decide
        have h3 : (' ' : Char) ≠ dquote := by decide
        have h4 : isspace ' ' = true := by decide
        simp [tokenize_step, h1, h2, h3, h4, hne]
      rw [hstep, ih (t ++ [w]) (fun x hx => hws x (List.mem_cons_of_mem _ hx))]
      simp

/-- Words joined by single spaces tokenize to these words. -/
theorem tokenize_join (ws : List Str) (hws : ∀ w ∈ ws, w ≠ [] ∧ plain_word w) :
    tokenize ([' '].intercalate ws) = ws := by
  have h := tokenize_fold_join ws [] hws
  simpa [tokenize] using h

/-- Tokens other than `|` are appended to the last segment. -/
theorem split_fold_words (l : List Str) : ∀ (sg : Segments), (∀ w ∈ l, w ≠ tok_pipe) →
    l.foldl split_step sg = { sg with back := sg.back ++ l } := by
  induction l with
  | nil => intro sg _; simp
  | cons w l ih =>
    intro sg hl
    have hw : w ≠ tok_pipe := hl w (List.mem_cons_self _ _)
    have hstep : split_step sg w = { sg with back := sg.back ++ [w] } := by
      simp [split_step, hw]
    rw [List.foldl_cons, hstep, ih _ (fun x hx => hl x (List.mem_cons_of_mem _ hx))]
    simp

/-- The split of commands joined by `|` and followed by tokens other than
`|`: the commands, the last one extended by these tokens. -/
theorem split_fold_join (init : List (List Str)) : ∀ (front : List (List Str))
    (last tail : List Str),
    (∀ seg ∈ init, ∀ w ∈ seg, w ≠ tok_pipe) → (∀ w ∈ last, w ≠ tok_pipe) →
    (∀ w ∈ tail, w ≠ tok_pipe) →
    ([tok_pipe].intercalate (init ++ [last]) ++ tail).foldl split_step
        { front := front, back := [] }
      = { front := front ++ init, back := last ++ tail } := by
  induction init with
  | nil =>
    intro front last tail _ hlast htail
    have e : [tok_pipe].intercalate ([] ++ [last]) = last := by simp [List.intercalate]
    rw [e, split_fold_words _ _ (by
      intro w hw
      rcases List.mem_append.mp hw with h | h
      · exact hlast w h
      · exact htail w h)]
    simp
  | cons a init ih =>
    intro front last tail hinit hlast htail
    have ha : ∀ w ∈ a, w ≠ tok_pipe := hinit a (List.mem_cons_self _ _)
    have hinit2 : ∀ seg ∈ init, ∀ w ∈ seg, w ≠ tok_pipe :=
      fun seg hseg => hinit seg (List.mem_cons_of_mem _ hseg)
    have e : [tok_pipe].intercalate (a :: init ++ [last])
        = a ++ [tok_pipe] ++ [tok_pipe].intercalate (init ++ [last]) := by
      cases init with
      | nil => simp [List.intercalate]
      | cons b init => simp [List.intercalate]
    have hstep : split_step { front := front, back := [] ++ a } tok_pipe
        = { front := front ++ [a], back := [] } := by
      simp [split_step]
    rw [e, List.append_assoc, List.append_assoc, List.foldl_append, split_fold_words a _ ha,
      List.foldl_append, List.foldl_cons, List.foldl_nil, hstep, ih _ _ _ hinit2 hlast htail]
    simp

/-- A segment of words that are no redirection operators is its own argument
vector, and leaves the redirections alone. -/
theorem parse_segment_words (ws : List Str) : ∀ (rest : List Str) (r : Redir) (c : Cmd),
    (∀ w ∈ ws, is_redir_op w = false) →
    parse_segment (ws ++ rest) r c = parse_segment rest r { argv := c.argv ++ ws } := by
  induction ws with
  | nil => intro rest r c _; simp
  | cons w ws ih =>
    intro rest r c hws
    rw [List.cons_append, parse_segment_word w _ r c (hws w (List.mem_cons_self _ _)),
      ih rest r _ (fun x hx => hws x (List.mem_cons_of_mem _ hx))]
    simp

/-- The scan of the redirection tokens of `r`, from no redirection at all,
gives `r` back when `r` has no append flag without its target. -/
theorem parse_segment_redir_tokens (r : Redir) (c : Cmd)
    (ho : r.out = none → r.append_out = false) (he : r.err = none → r.append_err = false) :
    parse_segment (redir_tokens r) {} c = (r, c) := by
  obtain ⟨i, o, e, ao, ae⟩ := r
  cases i <;> cases o <;> cases e <;> cases ao <;> cases ae <;>
    simp_all [redir_tokens, parse_segment, tok_lt, tok_gt, tok_gtgt, tok_2gt, tok_2gtgt]

/-- Segments of words, none empty: each becomes a command. -/
theorem parse_segments_words (init : List (List Str)) : ∀ (more : List (List Str))
    (r : Redir) (cmds : List Cmd),
    (∀ seg ∈ init, seg ≠ [] ∧ ∀ w ∈ seg, is_redir_op w = false) →
    parse_segments (init ++ more) r cmds
      = parse_segments more r (cmds ++ init.map (fun seg => (⟨seg⟩ : Cmd))) := by
  induction init with
  | nil => intro more r cmds _; simp
  | cons seg init ih =>
    intro more r cmds hinit
    obtain ⟨hne, hws⟩ := hinit seg (List.mem_cons_self _ _)
    have hseg : parse_segment seg r {} = (r, ⟨seg⟩) := by
      have h := parse_segment_words seg [] r {} hws
      simpa [parse_segment] using h
    have hstep : parse_segments (seg :: init ++ more) r cmds
        = parse_segments (init ++ more) r (cmds ++ [⟨seg⟩]) := by
      show parse_segments (seg :: (init ++ more)) r cmds = _
      simp only [parse_segments, hseg]
      rw [if_pos hne]
    rw [hstep, ih more r _ (fun x hx => hinit x (List.mem_cons_of_mem _ hx))]
    simp

/-- An admitted word is none of the reserved tokens. -/
theorem word_ok_not_reserved (w : Str) (hw : word_ok w) :
    w ≠ tok_pipe ∧ is_redir_op w = false ∧ w ≠ tok_amp := by
  have h := hw.2.2
  simp only [is_reserved, Bool.or_eq_false_iff, decide_eq_false_iff_not] at h
  exact ⟨h.1.1, h.1.2, h.2⟩

/-- A token of commands joined by `|` is `|` or an argument of a command. -/
theorem mem_intercalate_pipe (xs : List (List Str)) (w : Str)
    (hw : w ∈ [tok_pipe].intercalate xs) : w = tok_pipe ∨ ∃ x ∈ xs, w ∈ x := by
  induction xs with
  | nil => simp [List.intercalate] at hw
  | cons a xs ih =>
    cases xs with
    | nil =>
      have e : [tok_pipe].intercalate [a] = a := by simp [List.intercalate]
      rw [e] at hw
      exact Or.inr ⟨a, List.mem_cons_self _ _, hw⟩
    | cons b xs =>
      rw [intercalate_cons_cons] at hw
      rcases List.mem_append.mp hw with h | h
      · rcases List.mem_append.mp h with h | h
        · exact Or.inr ⟨a, List.mem_cons_self _ _, h⟩
        · exact Or.inl (by simpa using h)
      · rcases ih h with h | ⟨x, hx, hwx⟩
        · exact Or.inl h
        · exact Or.inr ⟨x, List.mem_cons_of_mem _ hx, hwx⟩

/-- A redirection token is an operator or a target. -/
theorem mem_redir_tokens (r : Redir) (w : Str) (hw : w ∈ redir_tokens r) :
    is_redir_op w = true ∨ r.in_ = some w ∨ r.out = some w ∨ r.err = some w := by
  unfold redir_tokens at hw
  rcases List.mem_append.mp hw with h | h
  · rcases List.mem_append.mp h with h | h
    · cases hi : r.in_ with
      | none => simp [hi] at h
      | some f =>
        simp only [hi, List.mem_cons, List.mem_singleton, List.not_mem_nil, or_false] at h
        rcases h with h | h
        · left; subst h; decide
        · right; left; rw [h]
    · cases ho : r.out with
      | none => simp [ho] at h
      | some f =>
        simp only [ho, List.mem_cons, List.mem_singleton, List.not_mem_nil, or_false] at h
        rcases h with h | h
        · left; subst h; cases r.append_out <;> decide
        · right; right; left; rw [h]
  · cases he : r.err with
    | none => simp [he] at h
    | some f =>
      simp only [he, List.mem_cons, List.mem_singleton, List.not_mem_nil, or_false] at h
      rcases h with h | h
      · left; subst h; cases r.append_err <;> decide
      · right; right; right; rw [h]

/-- The last redirection token is a target. -/
theorem getLast_redir_tokens (r : Redir) (w : Str)
    (hw : (redir_tokens r).getLast? = some w) :
    r.in_ = some w ∨ r.out = some w ∨ r.err = some w := by
  obtain ⟨i, o, e, ao, ae⟩ := r
  cases i <;> cases o <;> cases e <;> cases ao <;> cases ae <;>
    simp [redir_tokens] at hw <;> simp [hw]

/-- The reserved tokens are not empty and of plain characters. -/
theorem reserved_plain (w : Str) (hw : w = tok_pipe ∨ is_redir_op w = true ∨ w = tok_amp) :
    w ≠ [] ∧ plain_word w := by
  rcases hw with h | h | h
  · subst h; decide
  · simp only [is_redir_op, Bool.or_eq_true, decide_eq_true_eq] at h
    rcases h with (((h | h) | h) | h) | h <;> subst h <;> decide
  · subst h; decide

/-- Every token of the canonical serialization is a reserved token or an
admitted word. -/
theorem serialize_tokens_mem (p : Pipeline) (hp : Canonical p) (w : Str)
    (hw : w ∈ serialize_tokens p) :
    (w = tok_pipe ∨ is_redir_op w = true ∨ w = tok_amp) ∨ word_ok w := by
  unfold serialize_tokens at hw
  rcases List.mem_append.mp hw with h | h
  · rcases List.mem_append.mp h with h | h
    · rcases mem_intercalate_pipe _ _ h with h | ⟨x, hx, hwx⟩
      · exact Or.inl (Or.inl h)
      · obtain ⟨c, hc, rfl⟩ := List.mem_map.mp hx
        exact Or.inr (hp.args_ok c hc w hwx)
    · rcases mem_redir_tokens _ _ h with h | h | h | h
      · exact Or.inl (Or.inr (Or.inl h))
      · exact Or.inr (hp.in_ok w h)
      · exact Or.inr (hp.out_ok w h)
      · exact Or.inr (hp.err_ok w h)
  · by_cases hb : p.background = true
    · simp only [hb, if_true, List.mem_singleton] at h
      exact Or.inl (Or.inr (Or.inr h))
    · simp [hb] at h

/-- The tokens of the canonical serialization come back from `tokenize`. -/
theorem tokenize_serialize (p : Pipeline) (hp : Canonical p) :
    tokenize (serialize p) = serialize_tokens p := by
  apply tokenize_join
  intro w hw
  rcases serialize_tokens_mem p hp w hw with h | h
  · exact reserved_plain w h
  · exact ⟨h.1, h.2.1⟩

/-- The parse of the tokens of a canonical serialization, the commands given
as the argument vectors `init` before the last one and `last`. -/
theorem parse_canonical_tokens (init : List (List Str)) (last : List Str) (r : Redir)
    (bg : Bool)
    (hinit : ∀ seg ∈ init, seg ≠ [] ∧ ∀ w ∈ seg, word_ok w)
    (hlast : last ≠ [] ∧ ∀ w ∈ last, word_ok w)
    (hr : ∀ f, (r.in_ = some f ∨ r.out = some f ∨ r.err = some f) → word_ok f)
    (ho : r.out = none → r.append_out = false) (he : r.err = none → r.append_err = false) :
    has_amp (split_segments ([tok_pipe].intercalate (init ++ [last]) ++ redir_tokens r
        ++ (if bg then [tok_amp] else []))) = bg
      ∧ parse_segments (drop_amp (split_segments ([tok_pipe].intercalate (init ++ [last])
          ++ redir_tokens r ++ (if bg then [tok_amp] else [])))).toList {} []
        = (r, (init ++ [last]).map (fun seg => (⟨seg⟩ : Cmd))) := by
  have hrt : ∀ w ∈ redir_tokens r, w ≠ tok_pipe := by
    intro w hw
    rcases mem_redir_tokens r w hw with h | h | h | h
    · intro e; subst e; revert h; decide
    · exact (word_ok_not_reserved w (hr w (Or.inl h))).1
    · exact (word_ok_not_reserved w (hr w (Or.inr (Or.inl h)))).1
    · exact (word_ok_not_reserved w (hr w (Or.inr (Or.inr h)))).1
  have htail : ∀ w ∈ redir_tokens r ++ (if bg then [tok_amp] else []), w ≠ tok_pipe := by
    intro w hw
    rcases List.mem_append.mp hw with h | h
    · exact hrt w h
    · cases bg
      · simp at h
      · simp only [if_true, List.mem_singleton] at h
        subst h; decide
  have hsplit : split_segments ([tok_pipe].intercalate (init ++ [last]) ++ redir_tokens r
      ++ (if bg then [tok_amp] else []))
      = { front := init, back := last ++ (redir_tokens r ++ (if bg then [tok_amp] else [])) } := by
    unfold split_segments
    rw [List.append_assoc]
    have h := split_fold_join init [] last (redir_tokens r ++ (if bg then [tok_amp] else []))
      (fun seg hseg w hw => (word_ok_not_reserved w ((hinit seg hseg).2 w hw)).1)
      (fun w hw => (word_ok_not_reserved w (hlast.2 w hw)).1) htail
    simpa using h
  have hlast_amp : (last ++ redir_tokens r).getLast? ≠ some tok_amp := by
    intro h
    rw [List.getLast?_append] at h
    cases hl : (redir_tokens r).getLast? with
    | none =>
      rw [hl] at h
      simp only [Option.or] at h
      have hm : tok_amp ∈ last := List.mem_of_getLast?_eq_some h
      exact (word_ok_not_reserved _ (hlast.2 _ hm)).2.2 rfl
    | some x =>
      rw [hl] at h
      simp only [Option.or, Option.some.injEq] at h
      subst h
      exact (word_ok_not_reserved _ (hr _ (getLast_redir_tokens r _ hl))).2.2 rfl
  have hsegs : ∀ cmds, parse_segments (init ++ [last ++ redir_tokens r]) {} cmds
      = (r, cmds ++ (init ++ [last]).map (fun seg => (⟨seg⟩ : Cmd))) := by
    intro cmds
    rw [parse_segments_words init _ {} cmds
      (fun seg hseg => ⟨(hinit seg hseg).1,
        fun w hw => (word_ok_not_reserved w ((hinit seg hseg).2 w hw)).2.1⟩)]
    have hl : parse_segment (last ++ redir_tokens r) {} {} = (r, ⟨last⟩) := by
      rw [parse_segment_words last _ {} {}
        (fun w hw => (word_ok_not_reserved w (hlast.2 w hw)).2.1),
        parse_segment_redir_tokens r _ ho he]
      simp
    simp only [parse_segments, hl]
    rw [if_pos hlast.1]
    simp
  rw [hsplit]
  cases bg with
  | false =>
    have hback : last ++ (redir_tokens r ++ (if false = true then [tok_amp] else []))
        = last ++ redir_tokens r := by simp
    have hdec : decide ((last ++ redir_tokens r).getLast? = some tok_amp) = false :=
      decide_eq_false hlast_amp
    have hamp : has_amp { front := init, back := last ++ redir_tokens r } = false := by
      simp only [has_amp, hdec, Bool.and_false]
    rw [hback]
    refine ⟨hamp, ?_⟩
    simp only [drop_amp, hamp, Bool.false_eq_true, if_false, Segments.toList]
    simpa using hsegs []
  | true =>
    have hback : last ++ (redir_tokens r ++ (if true = true then [tok_amp] else []))
        = (last ++ redir_tokens r) ++ [tok_amp] := by simp
    have hamp : has_amp { front := init, back := (last ++ redir_tokens r) ++ [tok_amp] }
        = true := by
      simp only [has_amp, List.getLast?_concat]
      simp
    rw [hback]
    refine ⟨hamp, ?_⟩
    simp only [drop_amp, hamp, if_true, Segments.toList, List.dropLast_concat]
    simpa using hsegs []

/-- C5: `parse_line` of the canonical serialization of a Pipeline gives back
its commands, its three redirection targets with their two append flags, and
its background flag. -/
theorem parse_line_serialize (p : Pipeline) (hp : Canonical p) :
    (parse_line (serialize p)).cmds = p.cmds
      ∧ (parse_line (serialize p)).r = p.r
      ∧ (parse_line (serialize p)).background = p.background := by
  obtain ⟨initc, lastc, hcmds⟩ : ∃ initc lastc, p.cmds = initc ++ [lastc] := by
    rcases List.eq_nil_or_concat p.cmds with h | ⟨l, a, h⟩
    · exact absurd h hp.cmds_ne
    · exact ⟨l, a, by simpa using h⟩
  have hmem_init : ∀ c ∈ initc, c ∈ p.cmds := by
    intro c hc; rw [hcmds]; exact List.mem_append_left _ hc
  have hmem_last : lastc ∈ p.cmds := by rw [hcmds]; simp
  have htoks : serialize_tokens p
      = [tok_pipe].intercalate (initc.map Cmd.argv ++ [lastc.argv]) ++ redir_tokens p.r
        ++ (if p.background then [tok_amp] else []) := by
    simp [serialize_tokens, hcmds]
  have hcore := parse_canonical_tokens (initc.map Cmd.argv) lastc.argv p.r p.background
    (by
      intro seg hseg
      obtain ⟨c, hc, rfl⟩ := List.mem_map.mp hseg
      exact ⟨hp.argv_ne c (hmem_init c hc), hp.args_ok c (hmem_init c hc)⟩)
    ⟨hp.argv_ne lastc hmem_last, hp.args_ok lastc hmem_last⟩
    (by
      intro f hf
      rcases hf with h | h | h
      · exact hp.in_ok f h
      · exact hp.out_ok f h
      · exact hp.err_ok f h)
    hp.append_out_ok hp.append_err_ok
  have hid : ((fun seg => (⟨seg⟩ : Cmd)) ∘ Cmd.argv) = id := by
    funext c; rfl
  have hmap : (initc.map Cmd.argv ++ [lastc.argv]).map (fun seg => (⟨seg⟩ : Cmd)) = p.cmds := by
    rw [hcmds]
    simp [hid]
  simp only [parse_line, tokenize_serialize p hp, htoks, hcore.1, hcore.2, hmap, and_self]

/-- C5 at `cat < in.txt | wc -l >> out.txt &`. -/
theorem parse_line_serialize_witness :
    (parse_line (serialize
        { cmds := [⟨["cat".toList]⟩, ⟨["wc".toList, "-l".toList]⟩]
          r := { in_ := some "in.txt".toList, out := some "out.txt".toList, append_out := true }
          background := true })).cmds
        = [⟨["cat".toList]⟩, ⟨["wc".toList, "-l".toList]⟩]
      ∧ (parse_line (serialize
        { cmds := [⟨["cat".toList]⟩, ⟨["wc".toList, "-l".toList]⟩]
          r := { in_ := some "in.txt".toList, out := some "out.txt".toList, append_out := true }
          background := true })).r
        = { in_ := some "in.txt".toList, out := some "out.txt".toList, append_out := true }
      ∧ (parse_line (serialize
        { cmds := [⟨["cat".toList]⟩, ⟨["wc".toList, "-l".toList]⟩]
          r := { in_ := some "in.txt".toList, out := some "out.txt".toList, append_out := true }
          background := true })).background = true :=
  parse_line_serialize
    { cmds := [⟨["cat".toList]⟩, ⟨["wc".toList, "-l".toList]⟩]
      r := { in_ := some "in.txt".toList, out := some "out.txt".toList, append_out := true }
      background := true }
    { cmds_ne := by decide
      argv_ne := by decide
      args_ok := by decide
      in_ok := by intro f h; cases h; decide
      out_ok := by intro f h; cases h; decide
      err_ok := by intro f h; cases h
      append_out_ok := by intro h; cases h
      append_err_ok := by intro _; rfl }

/-! ## The stopped flag in `exec_pipeline` and `builtin_fg` -/

/-- C1 fails on the code: `sleep 30` is launched in the foreground from the
initial state, `fork` returns 100 and the wait on it reports a stop.
`exec_pipeline` returns with Job 1 in the table and its `stopped` flag
false, so `print_jobs` writes `running` for it. -/
theorem exec_pipeline_stop_not_marked :
    exec_pipeline {} { cmds := [⟨["sleep".toList, "30".toList]⟩], raw := "sleep 30".toList }
        ⟨fun _ => true, fun _ => 100, fun _ => ⟨0, WaitFinal.stopped⟩⟩
        = Outcome.ret 0
            { jobs := [⟨1, 100, "sleep 30".toList, false, false, [100]⟩], next_job_id := 2 }
      ∧ print_jobs [⟨1, 100, "sleep 30".toList, false, false, [100]⟩]
        = [(1, 100, "running".toList, "sleep 30".toList)] := by
  decide

/-- C4 fails on the code: the identifier `2147483648` is a string of decimal
digits that names no Job of the empty table, `is_number` accepts it, and
`stoi` throws: neither `builtin_fg` nor `builtin_bg` returns a status. -/
theorem builtin_fg_bg_terminate_on_long_id :
    is_number "2147483648".toList = true
      ∧ builtin_fg {} ["fg".toList, "2147483648".toList] (fun _ => ⟨0, WaitFinal.exited⟩)
        = Outcome.terminated
      ∧ builtin_bg {} ["bg".toList, "2147483648".toList] = Outcome.terminated := by
  decide

/-! ## The sweep of `remove_done_jobs` -/

/-- The probes of one Job are as many as its members. -/
theorem probe_pids_count (k : Kernel) (pids : List Int) : ∀ (n : Nat) (stopped alive : Bool),
    (probe_pids k n pids stopped alive).1 = n + pids.length := by
  induction pids with
  | nil => intro n stopped alive; simp [probe_pids]
  | cons pid pids ih =>
    intro n stopped alive
    simp only [probe_pids, ih, List.length_cons]
    omega

/-- The flag `any_alive` after the probes of one Job. -/
theorem probe_pids_alive (k : Kernel) (pids : List Int) : ∀ (n : Nat) (stopped alive : Bool),
    (probe_pids k n pids stopped alive).2.2 = (alive || any_live k n pids) := by
  induction pids with
  | nil => intro n stopped alive; simp [probe_pids, any_live]
  | cons pid pids ih =>
    intro n stopped alive
    simp only [probe_pids, ih, any_live, Bool.or_assoc]

/-- A liveness probe of a Job succeeds exactly when the probe of one of its
members does. -/
theorem any_live_iff (k : Kernel) (pids : List Int) : ∀ (n : Nat),
    any_live k n pids = true
      ↔ ∃ i, ∃ h : i < pids.length, k.kill0 (n + i) (pids.get ⟨i, h⟩) = true := by
  induction pids with
  | nil => intro n; simp [any_live]
  | cons pid pids ih =>
    intro n
    simp only [any_live, Bool.or_eq_true, ih]
    constructor
    · rintro (h | ⟨i, hi, h⟩)
      · exact ⟨0, by simp, by simpa using h⟩
      · refine ⟨i + 1, by simpa using hi, ?_⟩
        have e : n + (i + 1) = n + 1 + i := by omega
        rw [e]
        simpa using h
    · rintro ⟨i, hi, h⟩
      cases i with
      | zero => left; simpa using h
      | succ i =>
        right
        refine ⟨i, by simpa using hi, ?_⟩
        have e : n + (i + 1) = n + 1 + i := by omega
        rw [e] at h
        simpa using h

/-- The loop of `remove_done_jobs` at index `pre.length` of `pre ++ post`
keeps `pre` and sweeps `post`. -/
theorem remove_done_jobs_loop_eq (k : Kernel) (post : List Job) : ∀ (pre : List Job) (n : Nat),
    remove_done_jobs_loop k (pre ++ post) pre.length n = pre ++ sweep k n post := by
  induction post with
  | nil =>
    intro pre n
    rw [remove_done_jobs_loop]
    simp [sweep]
  | cons j js ih =>
    intro pre n
    rw [remove_done_jobs_loop]
    have hlt : pre.length < (pre ++ j :: js).length := by simp
    have hget : (pre ++ j :: js)[pre.length] = j := by
      rw [List.getElem_append_right (le_refl _)]
      simp
    simp only [hlt, dite_true, hget]
    have herase : (pre ++ j :: js).eraseIdx pre.length = pre ++ js := by
      rw [List.eraseIdx_append_of_length_le (le_refl _)]
      simp
    have hset : ∀ x : Job, (pre ++ j :: js).set pre.length x = (pre ++ [x]) ++ js := by
      intro x
      rw [List.set_append_right _ _ (le_refl _)]
      simp
    by_cases ha : (probe_pids k n j.pids j.stopped false).2.2 = true
    · have hlen : pre.length + 1 = (pre ++ [({ j with
          stopped := (probe_pids k n j.pids j.stopped false).2.1 } : Job)]).length := by simp
      simp only [ha, Bool.not_true, Bool.false_eq_true, if_false, hset, sweep]
      rw [hlen, ih]
      simp
    · have ha2 : (probe_pids k n j.pids j.stopped false).2.2 = false := by simpa using ha
      simp only [ha2, Bool.not_false, if_true, herase, sweep]
      rw [ih]

/-- The sweep keeps the Jobs with a live member, and writes nothing but
their `stopped` flag. -/
theorem sweep_fixed (k : Kernel) (jobs : List Job) : ∀ (n : Nat),
    (sweep k n jobs).map Job.fixed = (live_jobs k n jobs).map Job.fixed := by
  induction jobs with
  | nil => intro n; simp [sweep, live_jobs]
  | cons j js ih =>
    intro n
    simp only [sweep, live_jobs, probe_pids_alive, probe_pids_count, Bool.false_or]
    by_cases ha : any_live k n j.pids = true
    · simp [ha, ih, Job.fixed]
    · have ha2 : any_live k n j.pids = false := by simpa using ha
      simp [ha2, ih]

/-- C9: `remove_done_jobs` is a total function, and the table after it is
made of the Jobs of the table before it that have a member whose liveness
probe succeeds, in their order, each with its id, pgid, label, background
flag and members as before; a Job without a live member is not in it. -/
theorem remove_done_jobs_keeps_live (k : Kernel) (jobs : List Job) :
    (remove_done_jobs k jobs).map Job.fixed = (live_jobs k 0 jobs).map Job.fixed
      ∧ (live_jobs k 0 jobs).Sublist jobs
      ∧ ∀ (n : Nat) (pids : List Int), any_live k n pids = true
          ↔ ∃ i, ∃ h : i < pids.length, k.kill0 (n + i) (pids.get ⟨i, h⟩) = true := by
  refine ⟨?_, ?_, fun n pids => any_live_iff k pids n⟩
  · have h := remove_done_jobs_loop_eq k jobs [] 0
    simp only [List.nil_append, List.length_nil] at h
    rw [remove_done_jobs, h, sweep_fixed]
  · generalize 0 = n
    induction jobs generalizing n with
    | nil => simp [live_jobs]
    | cons j js ih =>
      simp only [live_jobs]
      split
      · exact (ih _).cons₂ _
      · exact (ih _).cons _

/-! ## Lemmas on the job engine -/

/-- Retrying interrupted waits does not change what the wait reports. -/
theorem wait_member_eq (n : Nat) (f : WaitFinal) : wait_member n f = f := by
  induction n with
  | zero => rfl
  | succ n ih => simpa [wait_member] using ih

/-- A stop seen earlier is not forgotten. -/
theorem wait_all_true (wait : Nat → WaitTrace) (pids : List Int) : ∀ (i : Nat),
    wait_all wait pids i true = true := by
  induction pids with
  | nil => intro i; rfl
  | cons p pids ih => intro i; simpa [wait_all] using ih (i + 1)

/-- When the wait on a member reports a stop, the loop ends with `stopped`. -/
theorem wait_all_stopped (wait : Nat → WaitTrace) (pids : List Int) : ∀ (i : Nat) (s : Bool),
    (∃ m, m < pids.length ∧ (wait (i + m)).final = WaitFinal.stopped) →
    wait_all wait pids i s = true := by
  induction pids with
  | nil => intro i s ⟨m, hm, _⟩; simp at hm
  | cons p pids ih =>
    intro i s ⟨m, hm, hst⟩
    simp only [wait_all, wait_member_eq]
    cases m with
    | zero =>
      have h0 : (wait i).final = WaitFinal.stopped := by simpa using hst
      simp only [h0, decide_True, Bool.or_true]
      exact wait_all_true wait pids (i + 1)
    | succ m =>
      refine ih (i + 1) _ ⟨m, by simpa using hm, ?_⟩
      have e : i + 1 + m = i + (m + 1) := by omega
      rw [e]; exact hst

/-- When no wait reports a stop, the loop leaves `stopped` as it was. -/
theorem wait_all_none (wait : Nat → WaitTrace) (pids : List Int) : ∀ (i : Nat) (s : Bool),
    (∀ m, m < pids.length → (wait (i + m)).final ≠ WaitFinal.stopped) →
    wait_all wait pids i s = s := by
  induction pids with
  | nil => intro i s _; rfl
  | cons p pids ih =>
    intro i s h
    have h0 : (wait i).final ≠ WaitFinal.stopped := by simpa using h 0 (by simp)
    simp only [wait_all, wait_member_eq, h0, decide_False, Bool.or_false]
    refine ih (i + 1) s (fun m hm => ?_)
    have e : i + 1 + m = i + (m + 1) := by omega
    rw [e]; exact h (m + 1) (by simpa using hm)

/-- When every `fork` returns a pid to the parent, the loop of forks ends
with the pids in launch order, the group being the one it started with or,
when it started with none, the first pid. -/
theorem fork_loop_ok (fork : Nat → Int) : ∀ (m i : Nat) (pgid : Int) (pids : List Int),
    (∀ j, j < m → 0 < fork (i + j)) →
    fork_loop fork m i pgid pids
      = ForkResult.ok (if pgid = 0 ∧ 0 < m then fork i else pgid)
          (pids ++ (List.range m).map (fun j => fork (i + j))) := by
  intro m
  induction m with
  | zero => intro i pgid pids _; simp [fork_loop]
  | succ m ih =>
    intro i pgid pids h
    have h0 : 0 < fork i := by simpa using h 0 (by omega)
    have hneg : ¬ fork i < 0 := by omega
    have hz : fork i ≠ 0 := by omega
    have hrest : ∀ j, j < m → 0 < fork (i + 1 + j) := by
      intro j hj
      have e : i + 1 + j = i + (j + 1) := by omega
      rw [e]; exact h (j + 1) (by omega)
    simp only [fork_loop, hneg, hz, if_false]
    rw [ih (i + 1) _ _ hrest, List.range_succ_eq_map]
    have e : ∀ j, i + 1 + j = i + (j + 1) := by intro j; omega
    by_cases hp : pgid = 0
    · simp [hp, hz, e, Function.comp_def]
    · simp [hp, e, Function.comp_def]

/-- `exec_pipeline` on a foreground Pipeline that launches: the Job is
registered as it is created, and removed when no wait reported a stop. -/
theorem exec_pipeline_foreground (st : Shell) (pl : Pipeline) (os : Spawn)
    (hl : launch_ok pl os) (hfg : pl.background = false) (hmax : st.next_job_id < INT_MAX) :
    exec_pipeline st pl os
      = if wait_all os.wait (launched_pids os.fork pl.cmds.length) 0 false then
          Outcome.ret 0
            { st with
              jobs := st.jobs ++ [registered_job st pl os]
              next_job_id := st.next_job_id + 1 }
        else
          Outcome.ret 0
            { st with
              jobs := (st.jobs ++ [registered_job st pl os]).filter
                (fun x => x.pgid ≠ os.fork 0)
              next_job_id := st.next_job_id + 1 } := by
  obtain ⟨hne, hpipes, hforks⟩ := hl
  have hn : pl.cmds.length ≠ 0 := by
    intro h; exact hne (List.length_eq_zero.mp h)
  have hfork := fork_loop_ok os.fork pl.cmds.length 0 0 []
    (fun j hj => by simpa using hforks j hj)
  have hpos : 0 < pl.cmds.length := Nat.pos_of_ne_zero hn
  simp only [true_and, hpos, if_true, List.nil_append, Nat.zero_add] at hfork
  have hmax2 : ¬ INT_MAX ≤ st.next_job_id := by omega
  unfold exec_pipeline
  simp only [hn, if_false, hpipes, Bool.not_true, Bool.false_eq_true, hfork, hmax2, hfg,
    Bool.not_false, if_true, registered_job, launched_pids]
  by_cases hw : wait_all os.wait (List.map os.fork (List.range pl.cmds.length)) 0 false = true
  · simp [hw]
  · simp [hw]

/-- The Job appended last is found by its id when no Job before it has
that id. -/
theorem find_job_by_id_last (jobs : List Job) (j : Job) (h : ∀ x ∈ jobs, x.id ≠ j.id) :
    find_job_by_id (jobs ++ [j]) j.id = some jobs.length := by
  induction jobs with
  | nil => simp [find_job_by_id]
  | cons x xs ih =>
    have hx : x.id ≠ j.id := h x (List.mem_cons_self _ _)
    have ih2 := ih (fun y hy => h y (List.mem_cons_of_mem _ hy))
    simp [find_job_by_id, hx, ih2]

/-- A write through a pointer to the last Job. -/
theorem modify_job_last (f : Job → Job) (jobs : List Job) (j : Job) :
    modify_job f (jobs ++ [j]) jobs.length = jobs ++ [f j] := by
  induction jobs with
  | nil => simp [modify_job]
  | cons x xs ih => simp [modify_job, ih]

/-- The members of the last Job. -/
theorem pids_at_last (jobs : List Job) (j : Job) :
    pids_at (jobs ++ [j]) jobs.length = j.pids := by
  simp [pids_at]

/-- The `stopped` flag of the last Job. -/
theorem stopped_at_last (jobs : List Job) (j : Job) :
    stopped_at (jobs ++ [j]) jobs.length = j.stopped := by
  simp [stopped_at]

/-- Erasing the last Job. -/
theorem erase_job_at_last (jobs : List Job) (j : Job) :
    erase_job_at (jobs ++ [j]) jobs.length = jobs := by
  simp [erase_job_at, remove_after_hole]

/-- `builtin_bg` on an argument vector that names a Job of the table. -/
theorem builtin_bg_found (st : Shell) (args : List Str) (id : Int) (k : Nat)
    (hargs : names_job args id) (hfind : find_job_by_id st.jobs id = some k) :
    builtin_bg st args
      = Outcome.ret 0
          { st with
            jobs := modify_job (fun j => { j with background := true, stopped := false })
              st.jobs k } := by
  obtain ⟨cmd, a, rest, rfl, hnum, hstoi⟩ := hargs
  simp [builtin_bg, hnum, hstoi, hfind]

/-- `builtin_fg` on an argument vector that names a Job of the table. -/
theorem builtin_fg_found (st : Shell) (args : List Str) (wait : Nat → WaitTrace) (id : Int)
    (k : Nat) (hargs : names_job args id) (hfind : find_job_by_id st.jobs id = some k) :
    builtin_fg st args wait
      = if wait_all wait
            (pids_at (modify_job (fun j => { j with background := false }) st.jobs k) k) 0
            (stopped_at (modify_job (fun j => { j with background := false }) st.jobs k) k)
        then
          Outcome.ret 0
            { st with
              jobs := modify_job (fun j => { j with stopped := true })
                (modify_job (fun j => { j with background := false }) st.jobs k) k }
        else
          Outcome.ret 0
            { st with
              jobs := erase_job_at
                (modify_job (fun j => { j with stopped := false })
                  (modify_job (fun j => { j with background := false }) st.jobs k) k) k } := by
  obtain ⟨cmd, a, rest, rfl, hnum, hstoi⟩ := hargs
  simp only [builtin_fg, hnum, hstoi, hfind, Bool.not_true, Bool.false_eq_true, if_false]
  by_cases hw : wait_all wait
      (pids_at (modify_job (fun j => { j with background := false }) st.jobs k) k) 0
      (stopped_at (modify_job (fun j => { j with background := false }) st.jobs k) k) = true
  · simp [hw]
  · have hw2 : wait_all wait
        (pids_at (modify_job (fun j => { j with background := false }) st.jobs k) k) 0
        (stopped_at (modify_job (fun j => { j with background := false }) st.jobs k) k)
        = false := by simpa using hw
    simp [hw2]

/-! ## Reachable states and the ids of the table -/

/-- Leaving Jobs out keeps the ids in order. -/
theorem ids_ok_sublist (jobs jobs2 : List Job) (next : Int)
    (hsub : (jobs2.map Job.id).Sublist (jobs.map Job.id)) (h : ids_ok jobs next) :
    ids_ok jobs2 next :=
  ⟨h.1.sublist hsub, fun i hi => h.2.1 i (hsub.subset hi), h.2.2⟩

/-- Registering a Job under `next` keeps the ids in order below `next + 1`. -/
theorem ids_ok_push (jobs : List Job) (next : Int) (j : Job) (hj : j.id = next)
    (h : ids_ok jobs next) : ids_ok (jobs ++ [j]) (next + 1) := by
  obtain ⟨hp, hb, hn⟩ := h
  refine ⟨?_, ?_, by omega⟩
  · rw [List.map_append, List.pairwise_append]
    refine ⟨hp, by simp, ?_⟩
    intro a ha b hb2
    simp only [List.map_cons, List.map_nil, List.mem_singleton] at hb2
    rw [hb2, hj]
    exact (hb a ha).2
  · intro i hi
    rw [List.map_append, List.mem_append] at hi
    rcases hi with hi | hi
    · have := hb i hi
      omega
    · simp only [List.map_cons, List.map_nil, List.mem_singleton] at hi
      rw [hi, hj]
      omega

/-- A write through a pointer that leaves the id alone leaves the ids of the
table alone. -/
theorem modify_job_ids (f : Job → Job) (hf : ∀ j, (f j).id = j.id) (jobs : List Job) :
    ∀ (k : Nat), (modify_job f jobs k).map Job.id = jobs.map Job.id := by
  induction jobs with
  | nil => intro k; rfl
  | cons j js ih =>
    intro k
    cases k with
    | zero => simp [modify_job, hf]
    | succ k => simp [modify_job, ih]

/-- What is left of `remove_if` after the hole is refilled: a sublist. -/
theorem remove_rest_sublist (cur : Int) (xs : List Job) : (remove_rest cur xs).Sublist xs := by
  induction xs with
  | nil => exact List.Sublist.slnil
  | cons x xs ih =>
    simp only [remove_rest]
    split
    · exact ih.cons _
    · exact ih.cons₂ _

/-- What is left of `remove_if` after the first removal: a sublist. -/
theorem remove_after_hole_sublist (xs : List Job) : ∀ (cur : Int),
    (remove_after_hole cur xs).Sublist xs := by
  induction xs with
  | nil => intro cur; exact List.Sublist.slnil
  | cons x xs ih =>
    intro cur
    simp only [remove_after_hole]
    split
    · exact (ih cur).cons _
    · exact (remove_rest_sublist x.id xs).cons₂ _

/-- Line 236 only removes Jobs. -/
theorem erase_job_at_sublist (jobs : List Job) (k : Nat) :
    (erase_job_at jobs k).Sublist jobs := by
  unfold erase_job_at
  cases h : jobs.drop k with
  | nil => exact List.Sublist.refl _
  | cons j rest =>
    simp only []
    have e : jobs = jobs.take k ++ j :: rest := by
      rw [← h, List.take_append_drop]
    conv => rhs; rw [e]
    exact List.Sublist.append (List.Sublist.refl _)
      ((remove_after_hole_sublist rest j.id).cons _)

/-- The sweep only removes Jobs and leaves the ids alone. -/
theorem sweep_ids_sublist (k : Kernel) (jobs : List Job) : ∀ (n : Nat),
    ((sweep k n jobs).map Job.id).Sublist (jobs.map Job.id) := by
  induction jobs with
  | nil => intro n; simp [sweep]
  | cons j js ih =>
    intro n
    simp only [sweep]
    split
    · exact (ih _).cons _
    · exact (ih _).cons₂ _

/-- `remove_done_jobs` only removes Jobs and leaves the ids alone. -/
theorem remove_done_jobs_ids_sublist (k : Kernel) (jobs : List Job) :
    ((remove_done_jobs k jobs).map Job.id).Sublist (jobs.map Job.id) := by
  have h := remove_done_jobs_loop_eq k jobs [] 0
  simp only [List.nil_append, List.length_nil] at h
  rw [remove_done_jobs, h]
  exact sweep_ids_sublist k jobs 0

/-- The statuses drained by `reap_children` leave the ids alone. -/
theorem mark_events_ids (events : List (Int × WStatus)) : ∀ (jobs : List Job),
    (events.foldl (fun js e => mark_status js e.1 e.2) jobs).map Job.id = jobs.map Job.id := by
  induction events with
  | nil => intro jobs; rfl
  | cons e events ih =>
    intro jobs
    rw [List.foldl_cons, ih]
    simp only [mark_status, List.map_map]
    apply List.map_congr_left
    intro j _
    simp only [Function.comp]
    split <;> rfl

/-- `reap_children` keeps the ids in order. -/
theorem reap_children_ids_ok (st : Shell) (events : List (Int × WStatus)) (k : Kernel)
    (h : ids_ok st.jobs st.next_job_id) :
    ids_ok (reap_children st events k).jobs (reap_children st events k).next_job_id := by
  unfold reap_children
  split
  · exact h
  · refine ids_ok_sublist st.jobs _ _ ?_ h
    have h1 := remove_done_jobs_ids_sublist k
      (events.foldl (fun js e => mark_status js e.1 e.2) st.jobs)
    rw [mark_events_ids] at h1
    exact h1

/-- `exec_pipeline` keeps the ids in order. -/
theorem exec_pipeline_ids_ok (st : Shell) (pl : Pipeline) (os : Spawn) (status : Int)
    (st2 : Shell) (hex : exec_pipeline st pl os = Outcome.ret status st2)
    (h : ids_ok st.jobs st.next_job_id) : ids_ok st2.jobs st2.next_job_id := by
  unfold exec_pipeline at hex
  simp only at hex
  split at hex
  · cases hex; exact h
  · split at hex
    · cases hex; exact h
    · split at hex
      · cases hex; exact h
      · cases hex
      · split at hex
        · cases hex
        · rename_i pgid pids _ _
          have hpush := ids_ok_push st.jobs st.next_job_id
            ⟨st.next_job_id, pgid, pl.raw, false, pl.background, pids⟩ rfl h
          split at hex
          · split at hex
            · cases hex
              exact ids_ok_sublist _ _ _ ((List.filter_sublist _).map _) hpush
            · cases hex; exact hpush
          · cases hex; exact hpush

/-- `builtin_fg` keeps the ids in order. -/
theorem builtin_fg_ids_ok (st : Shell) (args : List Str) (wait : Nat → WaitTrace)
    (status : Int) (st2 : Shell) (hex : builtin_fg st args wait = Outcome.ret status st2)
    (h : ids_ok st.jobs st.next_job_id) : ids_ok st2.jobs st2.next_job_id := by
  have hmod : ∀ (b : Bool) (k : Nat),
      (modify_job (fun j => { j with stopped := b })
        (modify_job (fun j => { j with background := false }) st.jobs k) k).map Job.id
        = st.jobs.map Job.id := by
    intro b k
    rw [modify_job_ids (fun j => { j with stopped := b }) (fun _ => rfl),
      modify_job_ids (fun j => { j with background := false }) (fun _ => rfl)]
  unfold builtin_fg at hex
  split at hex
  · split at hex
    · cases hex; exact h
    · split at hex
      · cases hex
      · split at hex
        · cases hex; exact h
        · rename_i k _
          simp only at hex
          split at hex
          · cases hex
            refine ids_ok_sublist st.jobs _ _ ?_ h
            refine List.Sublist.trans ((erase_job_at_sublist _ k).map _) ?_
            rw [hmod]
          · cases hex
            refine ids_ok_sublist st.jobs _ _ ?_ h
            rw [hmod]
  · cases hex; exact h

/-- `builtin_bg` keeps the ids in order. -/
theorem builtin_bg_ids_ok (st : Shell) (args : List Str) (status : Int) (st2 : Shell)
    (hex : builtin_bg st args = Outcome.ret status st2)
    (h : ids_ok st.jobs st.next_job_id) : ids_ok st2.jobs st2.next_job_id := by
  unfold builtin_bg at hex
  split at hex
  · split at hex
    · cases hex; exact h
    · split at hex
      · cases hex
      · split at hex
        · cases hex; exact h
        · rename_i k _
          cases hex
          refine ids_ok_sublist st.jobs _ _ ?_ h
          show (List.map Job.id (modify_job
            (fun j => { j with background := true, stopped := false }) st.jobs k)).Sublist _
          rw [modify_job_ids (fun j => { j with background := true, stopped := false })
            (fun _ => rfl)]
  · cases hex; exact h

/-- In every reachable state the ids of the table are in order below
`next_job_id`. -/
theorem reachable_ids_ok (st : Shell) (h : Reachable st) : ids_ok st.jobs st.next_job_id := by
  induction h with
  | init => exact ⟨List.Pairwise.nil, by simp, by decide⟩
  | sigchld st _ ih => exact ih
  | reap st events k _ ih => exact reap_children_ids_ok st events k ih
  | exec st pl os status st2 _ hex ih => exact exec_pipeline_ids_ok st pl os status st2 hex ih
  | fg st args wait status st2 _ hex ih => exact builtin_fg_ids_ok st args wait status st2 hex ih
  | bg st args status st2 _ hex ih => exact builtin_bg_ids_ok st args status st2 hex ih

/-- In a table of strictly increasing ids, `find_job_by_id` on the id of the
Job at index `i` finds index `i`. -/
theorem find_job_by_id_get (jobs : List Job) (hp : (jobs.map Job.id).Pairwise (· < ·)) :
    ∀ (i : Nat) (h : i < jobs.length), find_job_by_id jobs (jobs.get ⟨i, h⟩).id = some i := by
  induction jobs with
  | nil => intro i h; simp at h
  | cons j js ih =>
    intro i h
    rw [List.map_cons, List.pairwise_cons] at hp
    cases i with
    | zero => simp [find_job_by_id]
    | succ i =>
      have hi : i < js.length := by simpa using h
      have hlt : j.id < (js.get ⟨i, hi⟩).id :=
        hp.1 _ (List.mem_map.mpr ⟨_, List.get_mem js i hi, rfl⟩)
      have hne : j.id ≠ (js.get ⟨i, hi⟩).id := ne_of_lt hlt
      have ih2 := ih hp.2 i hi
      simp only [List.get_eq_getElem] at ih2 hne
      simp [find_job_by_id, hne, ih2]

/-- `fg` and `bg` on an identifier that is no string of digits, or is one
with a value in the range of `int` that names no Job: status 1, and the state
of the shell is as before. -/
theorem builtin_fg_bg_unknown_id (st : Shell) (cmd a : Str) (rest : List Str)
    (wait : Nat → WaitTrace)
    (h : is_number (strip_percent a) = false
      ∨ ∃ id, stoi (strip_percent a) = some id ∧ find_job_by_id st.jobs id = none) :
    builtin_fg st (cmd :: a :: rest) wait = Outcome.ret 1 st
      ∧ builtin_bg st (cmd :: a :: rest) = Outcome.ret 1 st := by
  rcases h with h | ⟨id, hs, hf⟩
  · simp [builtin_fg, builtin_bg, h]
  · by_cases hn : is_number (strip_percent a) = true
    · simp [builtin_fg, builtin_bg, hn, hs, hf]
    · simp [builtin_fg, builtin_bg, hn]

/-- C3: in a reachable state whose table holds no Job in the process group of
the new Pipeline, a foreground Pipeline that launches and has a member
reported stopped, then `bg` on the id of its Job, then `fg` on that id with
every member reported exited or killed by a signal: each of the three calls
returns 0, the Job is then absent from the table, the table is the one from
before the launch, and the state is the one a single `exec_pipeline` reaches
when every member is reported exited. -/
theorem bg_then_fg_same_as_uninterrupted (st : Shell) (pl : Pipeline) (os : Spawn)
    (done_wait fg_wait : Nat → WaitTrace) (bg_args fg_args : List Str)
    (hl : launch_ok pl os) (hfg : pl.background = false)
    (hmax : st.next_job_id < INT_MAX)
    (hreach : Reachable st)
    (hpgid : ∀ j ∈ st.jobs, j.pgid ≠ os.fork 0)
    (hstop : ∃ m, m < pl.cmds.length ∧ (os.wait m).final = WaitFinal.stopped)
    (hfgw : ∀ m, m < pl.cmds.length →
      (fg_wait m).final = WaitFinal.exited ∨ (fg_wait m).final = WaitFinal.signaled)
    (hdone : ∀ m, m < pl.cmds.length → (done_wait m).final = WaitFinal.exited)
    (hbg : names_job bg_args st.next_job_id) (hfga : names_job fg_args st.next_job_id) :
    ∃ s1 s2 s3,
      exec_pipeline st pl os = Outcome.ret 0 s1
        ∧ builtin_bg s1 bg_args = Outcome.ret 0 s2
        ∧ builtin_fg s2 fg_args fg_wait = Outcome.ret 0 s3
        ∧ (∀ j ∈ s3.jobs, j.id ≠ st.next_job_id)
        ∧ s3.jobs = st.jobs
        ∧ exec_pipeline st pl { os with wait := done_wait } = Outcome.ret 0 s3 := by
  have hlen : (launched_pids os.fork pl.cmds.length).length = pl.cmds.length := by
    simp [launched_pids]
  have hfresh : ∀ x ∈ st.jobs, x.id ≠ st.next_job_id :=
    fun x hx => ne_of_lt ((reachable_ids_ok st hreach).2.1 x.id
      (List.mem_map.mpr ⟨x, hx, rfl⟩)).2
  -- the interrupted launch
  have h1 := exec_pipeline_foreground st pl os hl hfg hmax
  rw [wait_all_stopped os.wait _ 0 false
    (by obtain ⟨m, hm, hs⟩ := hstop; exact ⟨m, by rw [hlen]; exact hm, by simpa using hs⟩)] at h1
  simp only [if_true] at h1
  -- bg
  have hfind1 : find_job_by_id (st.jobs ++ [registered_job st pl os]) st.next_job_id
      = some st.jobs.length := find_job_by_id_last st.jobs (registered_job st pl os) hfresh
  have h2 := builtin_bg_found
    { st with jobs := st.jobs ++ [registered_job st pl os], next_job_id := st.next_job_id + 1 }
    bg_args st.next_job_id st.jobs.length hbg hfind1
  simp only [modify_job_last] at h2
  -- fg
  have hfind2 : find_job_by_id
      (st.jobs ++ [{ registered_job st pl os with background := true, stopped := false }])
      st.next_job_id = some st.jobs.length :=
    find_job_by_id_last st.jobs
      { registered_job st pl os with background := true, stopped := false } hfresh
  have h3 := builtin_fg_found
    { st with
      jobs := st.jobs ++ [{ registered_job st pl os with background := true, stopped := false }]
      next_job_id := st.next_job_id + 1 }
    fg_args fg_wait st.next_job_id st.jobs.length hfga hfind2
  simp only [modify_job_last, pids_at_last, stopped_at_last, erase_job_at_last] at h3
  have hpids : (registered_job st pl os).pids = launched_pids os.fork pl.cmds.length := rfl
  rw [hpids, wait_all_none fg_wait _ 0 false (by
    intro m hm
    rw [hlen] at hm
    rcases hfgw m hm with h | h <;> simp [h])] at h3
  simp only [Bool.false_eq_true, if_false] at h3
  -- the uninterrupted launch
  have hl2 : launch_ok pl { os with wait := done_wait } := hl
  have h4 := exec_pipeline_foreground st pl { os with wait := done_wait } hl2 hfg hmax
  rw [wait_all_none done_wait _ 0 false (by
    intro m hm
    rw [hlen] at hm
    simp [hdone m hm])] at h4
  simp only [Bool.false_eq_true, if_false] at h4
  have hfilter : (st.jobs ++ [registered_job st pl { os with wait := done_wait }]).filter
      (fun x => x.pgid ≠ os.fork 0) = st.jobs := by
    rw [List.filter_append, List.filter_eq_self.mpr (fun x hx => by simpa using hpgid x hx)]
    simp [registered_job]
  rw [hfilter] at h4
  exact ⟨_, _, _, h1, h2, h3, hfresh, rfl, h4⟩

/-- C3 at `sleep 30` launched from the initial state with pid 100, stopped,
then `bg 1` and `fg %1`. -/
theorem bg_then_fg_same_as_uninterrupted_witness :
    ∃ s1 s2 s3,
      exec_pipeline {} { cmds := [⟨["sleep".toList, "30".toList]⟩], raw := "sleep 30".toList }
          ⟨fun _ => true, fun _ => 100, fun _ => ⟨0, WaitFinal.stopped⟩⟩ = Outcome.ret 0 s1
        ∧ builtin_bg s1 ["bg".toList, "1".toList] = Outcome.ret 0 s2
        ∧ builtin_fg s2 ["fg".toList, "%1".toList] (fun _ => ⟨1, WaitFinal.signaled⟩)
          = Outcome.ret 0 s3
        ∧ (∀ j ∈ s3.jobs, j.id ≠ ({} : Shell).next_job_id)
        ∧ s3.jobs = ({} : Shell).jobs
        ∧ exec_pipeline {}
            { cmds := [⟨["sleep".toList, "30".toList]⟩], raw := "sleep 30".toList }
            { (⟨fun _ => true, fun _ => 100, fun _ => ⟨0, WaitFinal.stopped⟩⟩ : Spawn) with
              wait := fun _ => ⟨0, WaitFinal.exited⟩ } = Outcome.ret 0 s3 :=
  bg_then_fg_same_as_uninterrupted {}
    { cmds := [⟨["sleep".toList, "30".toList]⟩], raw := "sleep 30".toList }
    ⟨fun _ => true, fun _ => 100, fun _ => ⟨0, WaitFinal.stopped⟩⟩
    (fun _ => ⟨0, WaitFinal.exited⟩) (fun _ => ⟨1, WaitFinal.signaled⟩)
    ["bg".toList, "1".toList] ["fg".toList, "%1".toList]
    (by decide) (by decide) (by decide) Reachable.init (by simp)
    ⟨0, by decide, rfl⟩ (fun _ _ => Or.inr rfl) (fun _ _ => rfl)
    ⟨"bg".toList, "1".toList, [], rfl, by decide, by decide⟩
    ⟨"fg".toList, "%1".toList, [], rfl, by decide, by decide⟩

/-- After the hole is refilled `remove_if` removes nothing when no id is the
one its predicate reads. -/
theorem remove_rest_none (cur : Int) (xs : List Job) (h : ∀ x ∈ xs, x.id ≠ cur) :
    remove_rest cur xs = xs := by
  induction xs with
  | nil => rfl
  | cons x xs ih =>
    have hx : x.id ≠ cur := h x (List.mem_cons_self _ _)
    simp [remove_rest, hx, ih (fun y hy => h y (List.mem_cons_of_mem _ hy))]

/-- In a table of strictly increasing ids, line 236 erases the Job `j`
points at and no other. -/
theorem erase_job_at_eq_eraseIdx (jobs : List Job) (k : Nat)
    (hp : (jobs.map Job.id).Pairwise (· < ·)) : erase_job_at jobs k = jobs.eraseIdx k := by
  unfold erase_job_at
  cases h : jobs.drop k with
  | nil =>
    simp only []
    have hk : jobs.length ≤ k := List.drop_eq_nil_iff.mp h
    rw [List.eraseIdx_of_length_le hk]
  | cons j rest =>
    simp only []
    have e : jobs = jobs.take k ++ j :: rest := by
      rw [← h, List.take_append_drop]
    have hrest : jobs.drop (k + 1) = rest := by
      have h2 : jobs.drop (k + 1) = (jobs.drop k).drop 1 := by
        rw [List.drop_drop, Nat.add_comm]
      rw [h2, h]
      rfl
    have hp2 : ((j :: rest).map Job.id).Pairwise (· < ·) := by
      rw [e, List.map_append, List.pairwise_append] at hp
      exact hp.2.1
    rw [List.map_cons, List.pairwise_cons] at hp2
    have hhole : remove_after_hole j.id rest = rest := by
      cases rest with
      | nil => rfl
      | cons x xs =>
        have hx : x.id ≠ j.id := ne_of_gt (hp2.1 x.id (by simp))
        have hxs : ∀ y ∈ xs, y.id ≠ x.id := by
          intro y hy
          have hpx := hp2.2
          rw [List.map_cons, List.pairwise_cons] at hpx
          exact ne_of_gt (hpx.1 y.id (List.mem_map.mpr ⟨y, hy, rfl⟩))
        simp [remove_after_hole, hx, remove_rest_none x.id xs hxs]
    rw [hhole, List.eraseIdx_eq_take_drop_succ, hrest]

/-- A write through a pointer to the Job at index `k` changes the table at
index `k` only. -/
theorem modify_job_take_drop (f : Job → Job) (jobs : List Job) : ∀ (k : Nat),
    (modify_job f jobs k).take k = jobs.take k
      ∧ (modify_job f jobs k).drop (k + 1) = jobs.drop (k + 1)
      ∧ (modify_job f jobs k).drop k = (jobs.drop k).head?.toList.map f ++ jobs.drop (k + 1) := by
  induction jobs with
  | nil => intro k; simp [modify_job]
  | cons j js ih =>
    intro k
    cases k with
    | zero => simp [modify_job]
    | succ k =>
      obtain ⟨h1, h2, h3⟩ := ih k
      simp [modify_job, h1, h2, h3]

/-- What C2 says holds for a Job that is not marked stopped: in a table of
strictly increasing ids, `fg` on such a Job, with no wait reporting a stop,
returns 0 and erases this Job and no other. -/
theorem builtin_fg_removes_job (st : Shell) (args : List Str) (wait : Nat → WaitTrace)
    (id : Int) (k : Nat) (hp : (st.jobs.map Job.id).Pairwise (· < ·))
    (hargs : names_job args id) (hfind : find_job_by_id st.jobs id = some k)
    (hrun : stopped_at st.jobs k = false)
    (hwait : ∀ m, (wait m).final ≠ WaitFinal.stopped) :
    builtin_fg st args wait = Outcome.ret 0 { st with jobs := st.jobs.eraseIdx k } := by
  have hd := (modify_job_take_drop (fun j => { j with background := false }) st.jobs k).2.2
  have hstop : stopped_at (modify_job (fun j => { j with background := false }) st.jobs k) k
      = false := by
    unfold stopped_at at hrun ⊢
    rw [hd]
    cases h : st.jobs.drop k with
    | nil =>
      have h1 : st.jobs.drop (k + 1) = [] := by
        have h2 : st.jobs.drop (k + 1) = (st.jobs.drop k).drop 1 := by
          rw [List.drop_drop, Nat.add_comm]
        rw [h2, h]; rfl
      simp [h1]
    | cons j rest =>
      rw [h] at hrun
      simpa using hrun
  have h := builtin_fg_found st args wait id k hargs hfind
  rw [hstop, wait_all_none wait _ 0 false (fun m _ => hwait (0 + m))] at h
  simp only [Bool.false_eq_true, if_false] at h
  rw [h]
  have hids : ((modify_job (fun j => { j with stopped := false })
      (modify_job (fun j => { j with background := false }) st.jobs k) k).map Job.id).Pairwise
      (· < ·) := by
    rw [modify_job_ids (fun j => { j with stopped := false }) (fun _ => rfl),
      modify_job_ids (fun j => { j with background := false }) (fun _ => rfl)]
    exact hp
  rw [erase_job_at_eq_eraseIdx _ k hids, List.eraseIdx_eq_take_drop_succ,
    List.eraseIdx_eq_take_drop_succ]
  obtain ⟨t1, d1, _⟩ := modify_job_take_drop (fun j => { j with stopped := false })
    (modify_job (fun j => { j with background := false }) st.jobs k) k
  obtain ⟨t2, d2, _⟩ := modify_job_take_drop (fun j => { j with background := false })
    st.jobs k
  rw [t1, d1, t2, d2]

/-- C10: in every reachable state the ids of the Jobs of the table are
strictly increasing along the table, hence pairwise distinct, each at least
1 and less than `next_job_id`, so that the id given to the next Job is the
id of no Job of the table; and `find_job_by_id` on the id of a Job of the
table finds this very Job. -/
theorem reachable_ids_distinct_ordered (st : Shell) (h : Reachable st) :
    (st.jobs.map Job.id).Pairwise (· < ·)
      ∧ (st.jobs.map Job.id).Nodup
      ∧ (∀ j ∈ st.jobs, 1 ≤ j.id ∧ j.id < st.next_job_id)
      ∧ (∀ (i : Nat) (hi : i < st.jobs.length),
          find_job_by_id st.jobs (st.jobs.get ⟨i, hi⟩).id = some i) := by
  obtain ⟨hp, hb, _⟩ := reachable_ids_ok st h
  refine ⟨hp, ?_, ?_, find_job_by_id_get st.jobs hp⟩
  · exact hp.imp (fun hlt => ne_of_lt hlt)
  · intro j hj
    exact hb j.id (List.mem_map.mpr ⟨j, hj, rfl⟩)

/-- `remove_done_jobs` is the sweep of the whole table. -/
theorem remove_done_jobs_eq_sweep (k : Kernel) (jobs : List Job) :
    remove_done_jobs k jobs = sweep k 0 jobs := by
  have h := remove_done_jobs_loop_eq k jobs [] 0
  simpa [remove_done_jobs] using h

/-- The state `one_background_job` is reachable. -/
theorem one_background_job_reachable : Reachable one_background_job :=
  Reachable.exec {}
    { cmds := [⟨["sleep".toList, "30".toList]⟩], background := true, raw := "sleep 30 &".toList }
    ⟨fun _ => true, fun _ => 100, fun _ => ⟨0, WaitFinal.exited⟩⟩ 0 one_background_job
    Reachable.init (by decide)

/-- The state `one_stopped_job` is reachable: the Job of `one_background_job`
is stopped by a signal, and `reap_children` sees the status. -/
theorem one_stopped_job_reachable : Reachable one_stopped_job := by
  have h := Reachable.reap { one_background_job with sigchld_flag := true }
    [(100, WStatus.stopped)] ⟨fun _ _ => none, fun _ _ => true⟩
    (Reachable.sigchld _ one_background_job_reachable)
  have e : reap_children { one_background_job with sigchld_flag := true }
      [(100, WStatus.stopped)] ⟨fun _ _ => none, fun _ _ => true⟩ = one_stopped_job := by
    simp only [reap_children, remove_done_jobs_eq_sweep]
    decide
  rw [e] at h
  exact h

/-- C2 fails on the code: Job 1 is in the table marked stopped (a reachable
state), `fg 1` is run and the wait on its only member reports an exit.
`builtin_fg` returns 0 and Job 1 is still in the table, still marked
stopped. -/
theorem builtin_fg_keeps_finished_stopped_job :
    Reachable one_stopped_job
      ∧ builtin_fg one_stopped_job ["fg".toList, "1".toList] (fun _ => ⟨0, WaitFinal.exited⟩)
        = Outcome.ret 0
            { jobs := [⟨1, 100, "sleep 30 &".toList, true, false, [100]⟩], next_job_id := 2 } :=
  ⟨one_stopped_job_reachable, by decide⟩

/-- C10 at the state after `sleep 30 &`. -/
theorem reachable_ids_distinct_ordered_witness :
    Reachable one_background_job
      ∧ (one_background_job.jobs.map Job.id).Pairwise (· < ·)
      ∧ (one_background_job.jobs.map Job.id).Nodup
      ∧ (∀ j ∈ one_background_job.jobs, 1 ≤ j.id ∧ j.id < one_background_job.next_job_id)
      ∧ (∀ (i : Nat) (hi : i < one_background_job.jobs.length),
          find_job_by_id one_background_job.jobs (one_background_job.jobs.get ⟨i, hi⟩).id
            = some i) :=
  ⟨one_background_job_reachable,
    reachable_ids_distinct_ordered one_background_job one_background_job_reachable⟩

end MiniShell
